import Mathlib

/-!
Verification of the two container engines of this repository.

* `Avl`: the balanced ordered set (`Set` / `Node` / `SetIterator` of the
  C++ source).  A node is embedded as an inductive tree carrying the
  cached `height` field; parent pointers, which the C++ code keeps as
  exact inverses of the child pointers, are embedded as the zipper
  context of an iterator (`Frame`), so the iterator's climb over parent
  links is the walk over that context.
* `HM`: the open-addressing hash table (`HashMap` of the C++ source).
  Keys, values and hashes are `Nat`.  A record of the `std::list` is
  embedded as `(id, key, value)` where `id` is a unique stamp standing
  for the stability of a list iterator; a slot of `pointers` stores the
  id of the record it references.  The unbounded `while` probe loops are
  embedded with an explicit fuel argument; an operation whose loop would
  run forever returns `none`.  The operations call the probes with fuel
  `capacity`: the table does not change while probing, so a probe that
  has not stopped after visiting every slot once never stops.
-/

namespace Avl

inductive Tree where
  | nil : Tree
  | node (l : Tree) (v : Nat) (r : Tree) (h : Nat) : Tree
deriving DecidableEq

open Tree

/-- The cached `height` field (`0` for a null pointer, as in `get_balance`
and `update_height`). -/
def cachedH : Tree → Nat
  | nil => 0
  | node _ _ _ h => h

/-- The real height of the tree: 0 for a missing child, as the spec counts. -/
def realH : Tree → Nat
  | nil => 0
  | node l _ r _ => 1 + max (realH l) (realH r)

def inorder : Tree → List Nat
  | nil => []
  | node l v r _ => inorder l ++ v :: inorder r

def tsize : Tree → Nat
  | nil => 0
  | node l _ r _ => tsize l + tsize r + 1

/-- `Node::update_height`: `height = 1`, then `max` with `left->height + 1`
and `right->height + 1` when present; equal to `1 + max` of the children's
cached heights, a missing child counting 0. -/
def updateHeight : Tree → Tree
  | nil => nil
  | node l v r _ => node l v r (1 + max (cachedH l) (cachedH r))

/-- `Node::get_balance`: cached left height minus cached right height
(the C++ mixed `int`/`size_t` arithmetic agrees with this for any heights
below `2^31`, which every realistic tree satisfies). -/
def getBalance : Tree → Int
  | nil => 0
  | node l _ r _ => (cachedH l : Int) - (cachedH r : Int)

/-- `Set::rotate_left`; the two `update_height` calls recompute the caches
of the two relinked nodes, in the source's order (`a` first, then `b`).
The shape-mismatch fallback (no right child) is unreachable at call sites. -/
def rotateLeft : Tree → Tree
  | node l v (node m w n _) _ =>
      node (node l v m (1 + max (cachedH l) (cachedH m))) w n
        (1 + max (1 + max (cachedH l) (cachedH m)) (cachedH n))
  | t => t

/-- `Set::rotate_right`. -/
def rotateRight : Tree → Tree
  | node (node k u m _) v n _ =>
      node k u (node m v n (1 + max (cachedH m) (cachedH n)))
        (1 + max (cachedH k) (1 + max (cachedH m) (cachedH n)))
  | t => t

/-- `Set::big_rotate_left`: `rotate_right(a->right)` then `rotate_left(a)`.
The stale cached height of `a` between the two rotations is never read. -/
def bigRotateLeft : Tree → Tree
  | node l v r h => rotateLeft (node l v (rotateRight r) h)
  | nil => nil

/-- `Set::big_rotate_right`. -/
def bigRotateRight : Tree → Tree
  | node l v r h => rotateRight (node (rotateLeft l) v r h)
  | nil => nil

/-- `Set::balance_node`. -/
def balanceNode (t : Tree) : Tree :=
  match t with
  | nil => nil
  | node l v r h =>
    if getBalance (node l v r h) = -2 then
      if getBalance r = 1 then bigRotateLeft (node l v r h)
      else rotateLeft (node l v r h)
    else if getBalance (node l v r h) = 2 then
      if getBalance l = -1 then bigRotateRight (node l v r h)
      else rotateRight (node l v r h)
    else node l v r h

/-- `Node::equal`: `!(val < value) && !(value < val)`. -/
def nodeEq (a b : Nat) : Prop := ¬ a < b ∧ ¬ b < a

instance (a b : Nat) : Decidable (nodeEq a b) := by
  unfold nodeEq; infer_instance

/-- `Set::insert_value` (the parent back-link argument is represented by
the tree structure itself; a fresh `Node` carries height 1). -/
def insertValue (t : Tree) (v : Nat) : Tree :=
  match t with
  | nil => node nil v nil 1
  | node l x r h =>
    if nodeEq x v then node l x r h
    else if v < x then balanceNode (updateHeight (node (insertValue l v) x r h))
    else balanceNode (updateHeight (node l x (insertValue r v) h))

/-- Value of the leftmost node (`near` of the erase path going right). -/
def minVal : Tree → Nat
  | nil => 0
  | node nil x _ _ => x
  | node (node a b c d) _ _ _ => minVal (node a b c d)

/-- Value of the rightmost node. -/
def maxVal : Tree → Nat
  | nil => 0
  | node _ x nil _ => x
  | node _ _ (node a b c d) _ => maxVal (node a b c d)

/-- Write `w` into the leftmost node (the `std::swap` half that lands in
`near` when erasing goes right). -/
def setMin : Tree → Nat → Tree
  | nil, _ => nil
  | node nil _ r h, w => node nil w r h
  | node (node a b c d) x r h, w => node (setMin (node a b c d) w) x r h

/-- Write `w` into the rightmost node. -/
def setMax : Tree → Nat → Tree
  | nil, _ => nil
  | node l _ nil h, w => node l w nil h
  | node l x (node a b c d) h, w => node l x (setMax (node a b c d) w) h

/-- `Set::erase_value`.  In the two-child/one-child case the source swaps
the node's value with its in-order neighbour on the (cached-height) taller
side and recurses into that subtree for the swapped-down value; the leaf
case returns before the trailing `update_height` / `balance_node` pair. -/
def eraseValue (t : Tree) (v : Nat) : Tree :=
  match t with
  | nil => nil
  | node l x r h =>
    if nodeEq x v then
      if l = nil ∧ r = nil then nil
      else if l = nil ∨ (r ≠ nil ∧ cachedH r > cachedH l) then
        balanceNode (updateHeight (node l (minVal r) (eraseValue (setMin r v) v) h))
      else
        balanceNode (updateHeight (node (eraseValue (setMax l v) v) (maxVal l) r h))
    else if v < x then
      balanceNode (updateHeight (node (eraseValue l v) x r h))
    else
      balanceNode (updateHeight (node l x (eraseValue r v) h))
termination_by tsize t
decreasing_by
all_goals
  have hmin : ∀ (u : Tree) (w : Nat), tsize (setMin u w) = tsize u := by
    intro u w
    induction u with
    | nil => rfl
    | node ul ux ur uh ihl ihr =>
      cases ul with
      | nil => rfl
      | node a b c d => simp only [setMin, tsize, ihl]
  have hmax : ∀ (u : Tree) (w : Nat), tsize (setMax u w) = tsize u := by
    intro u w
    induction u with
    | nil => rfl
    | node ul ux ur uh ihl ihr =>
      cases ur with
      | nil => rfl
      | node a b c d => simp only [setMax, tsize, ihr]
  simp only [tsize, hmin, hmax]
  omega

/-- `Set::insert`: `insert_value(root, value, nullptr)` (the
`update_first_node` call re-establishes `first_node` as the leftmost node,
which `beginLoc` recomputes). -/
def setInsert (t : Tree) (v : Nat) : Tree := insertValue t v

/-- `Set::erase`. -/
def setErase (t : Tree) (v : Nat) : Tree := eraseValue t v

/-- Trees reachable from the empty tree by the public insert/erase calls. -/
inductive TReach : Tree → Prop where
  | empty : TReach nil
  | ins : ∀ {t : Tree} (v : Nat), TReach t → TReach (setInsert t v)
  | ers : ∀ {t : Tree} (v : Nat), TReach t → TReach (setErase t v)

/-- One step of the parent chain of `SetIterator`: the iterator's node is
the left (`fromLeft`) or right (`fromRight`) child of a parent carrying
value `v`, cached height `h` and the given other subtree. -/
inductive Frame where
  | fromLeft (v : Nat) (h : Nat) (r : Tree) : Frame
  | fromRight (l : Tree) (v : Nat) (h : Nat) : Frame

/-- `SetIterator`: the current node together with the whole parent chain
up to the root (`node` plus the `parent` links; `root` is the chain's
far end). -/
structure SetIter where
  cur : Tree
  ctx : List Frame

/-- Descend to the leftmost node, recording the parents passed. -/
def leftmostLoc : Tree → List Frame → Option SetIter
  | nil, _ => none
  | node nil v r h, ctx => some ⟨node nil v r h, ctx⟩
  | node (node a b c d) v r h, ctx =>
      leftmostLoc (node a b c d) (Frame.fromLeft v h r :: ctx)

/-- `Set::begin`: the cached `first_node`, i.e. the leftmost node reached
from the root (`none` is the `end()` sentinel, `first_node == nullptr`). -/
def beginLoc (t : Tree) : Option SetIter := leftmostLoc t []

/-- The climb of `operator++`: `while (node != root && node ==
node->parent->right) node = node->parent; node = node->parent;`. -/
def climbUp : Tree → List Frame → Option SetIter
  | _, [] => none
  | t, Frame.fromLeft v h r :: ctx => some ⟨node t v r h, ctx⟩
  | t, Frame.fromRight l v h :: ctx => climbUp (node l v t h) ctx

/-- `SetIterator::operator++`: with a right child, its leftmost
descendant; otherwise the parent climb.  (Never called at `end()`.) -/
def succLoc : SetIter → Option SetIter
  | ⟨nil, _⟩ => none
  | ⟨node l v nil h, ctx⟩ => climbUp (node l v nil h) ctx
  | ⟨node l v (node a b c d) h, ctx⟩ =>
      leftmostLoc (node a b c d) (Frame.fromRight l v h :: ctx)

/-- `SetIterator::operator*`. -/
def locVal : SetIter → Nat
  | ⟨nil, _⟩ => 0
  | ⟨node _ v _ _, _⟩ => v

/-- Collect at most `fuel` values by repeated `operator++`. -/
def iterFrom : Nat → SetIter → List Nat
  | 0, _ => []
  | fuel + 1, it =>
    locVal it ::
      (match succLoc it with
       | none => []
       | some it2 => iterFrom fuel it2)

/-- The full traversal `begin()` to `end()` (a tree stores
`(inorder t).length` values, so that fuel suffices). -/
def iterAll (t : Tree) : List Nat :=
  match beginLoc t with
  | none => []
  | some it => iterFrom (inorder t).length it

/-- Values still to be visited from an iterator position, the current
node included: the node, its right subtree, then everything above and to
the right in the parent chain. -/
def ctxRest : List Frame → List Nat
  | [] => []
  | Frame.fromLeft v _ r :: ctx => v :: (inorder r ++ ctxRest ctx)
  | Frame.fromRight _ _ _ :: ctx => ctxRest ctx

def toVisit : SetIter → List Nat
  | ⟨nil, ctx⟩ => ctxRest ctx
  | ⟨node _ v r _, ctx⟩ => v :: (inorder r ++ ctxRest ctx)

/-- The BST-order invariant, stated on the in-order listing: strictly
increasing, hence duplicate-free. -/
def ordered (t : Tree) : Prop := (inorder t).Pairwise (· < ·)

/-- Every cached `height` field is correct: `1 + max` of the children's
real heights. -/
def hOK : Tree → Prop
  | nil => True
  | node l _ r h => hOK l ∧ hOK r ∧ h = 1 + max (realH l) (realH r)

/-- The AVL balance invariant on real heights, a missing child counting 0. -/
def avl : Tree → Prop
  | nil => True
  | node l _ r _ => avl l ∧ avl r ∧ realH l ≤ realH r + 1 ∧ realH r ≤ realH l + 1

end Avl

namespace HM

inductive SlotState where
  | stEmpty : SlotState
  | stFilled : SlotState
  | stErased : SlotState
deriving DecidableEq

open SlotState

/-- `HashMap`.  `values` is the `std::list` of records in insertion
order, each stamped with a unique id (`nextId` is the next stamp);
`pointers` stores, per slot, the id of the referenced record (the list
iterator); `states` the tri-state tags.  The capacity is
`pointers.length` (`pointers.size()` in the source). -/
structure HashMap where
  hashf : Nat → Nat
  pointers : List Nat
  states : List SlotState
  values : List (Nat × Nat × Nat)
  occupancy : Nat
  nextId : Nat

/-- `pointers.size()`. -/
def cap (m : HashMap) : Nat := m.pointers.length

/-- The key/value pairs in record-list order (what iteration
`begin()..end()` yields). -/
def pairs (m : HashMap) : List (Nat × Nat) := m.values.map fun r => (r.2.1, r.2.2)

/-- The freshly constructed table: capacity 8, all slots `Empty`. -/
def hmInit (h : Nat → Nat) : HashMap :=
  ⟨h, List.replicate 8 0, List.replicate 8 stEmpty, [], 0, 0⟩

/-- `++position; if (position >= pointers.size()) position = 0;`. -/
def nextPos (c pos : Nat) : Nat := if pos + 1 ≥ c then 0 else pos + 1

/-- `pointers[pos]->first`: the key of the record whose id the slot
stores (meaningful whenever the slot is `Filled`, which keeps every such
id live). -/
def slotKey (m : HashMap) (pos : Nat) : Nat :=
  match m.values.find? fun r => r.1 = m.pointers.getD pos 0 with
  | some r => r.2.1
  | none => 0

/-- `pointers[pos]->second`. -/
def slotVal (m : HashMap) (pos : Nat) : Nat :=
  match m.values.find? fun r => r.1 = m.pointers.getD pos 0 with
  | some r => r.2.2
  | none => 0

/-- The lookup probe of `operator[]`, `at`, `erase` and `find`:
`while (states[p] == ERASED || (states[p] == FILLED && pointers[p]->first != key))`.
Returns the stopping position, `none` when `fuel` iterations do not stop
(the loop state never changes, so fuel `cap` decides divergence). -/
def probeFind (m : HashMap) (k : Nat) : Nat → Nat → Option Nat
  | 0, _ => none
  | fuel + 1, pos =>
    if m.states.getD pos stEmpty = stErased ∨
        (m.states.getD pos stEmpty = stFilled ∧ ¬ slotKey m pos = k) then
      probeFind m k fuel (nextPos (cap m) pos)
    else some pos

/-- Outcome of the insert probe: the key was met in a `Filled` slot
(early `return`), or a non-`Filled` slot to write into. -/
inductive InsStop where
  | dup : InsStop
  | free (pos : Nat) : InsStop

/-- The insert probe: `while (states[p] == FILLED)` with the early
no-op `return` on a key match. -/
def probeIns (m : HashMap) (k : Nat) : Nat → Nat → Option InsStop
  | 0, _ => none
  | fuel + 1, pos =>
    if m.states.getD pos stEmpty = stFilled then
      if slotKey m pos = k then some InsStop.dup
      else probeIns m k fuel (nextPos (cap m) pos)
    else some (InsStop.free pos)

/-- The rehash probe of `check_size`: `while (states[p] == FILLED)` over
the new slot table. -/
def probeFree (states : List SlotState) (c : Nat) : Nat → Nat → Option Nat
  | 0, _ => none
  | fuel + 1, pos =>
    if states.getD pos stEmpty = stFilled then probeFree states c fuel (nextPos c pos)
    else some pos

/-- One record of the rehash loop of `check_size`: probe the new table
from `hash(it->first) % new_capacity`, store the iterator, mark `Filled` —
and the source's stray `occupancy = 0;` inside the loop body. -/
def rehashStep (hashf : Nat → Nat) (c : Nat)
    (acc : List Nat × List SlotState × Nat) (r : Nat × Nat × Nat) :
    Option (List Nat × List SlotState × Nat) :=
  match probeFree acc.2.1 c c (hashf r.2.1 % c) with
  | none => none
  | some pos => some (acc.1.set pos r.1, acc.2.1.set pos stFilled, 0)

/-- `HashMap::check_size`: on `occupancy * 4 >= capacity`, double the
slot table and re-probe every live record; the record list itself is
untouched.  (The `bad_alloc` fallback is not represented: allocation
cannot fail in the model.) -/
def checkSize (m : HashMap) : Option HashMap :=
  if m.occupancy * 4 ≥ cap m then
    match m.values.foldlM (rehashStep m.hashf (cap m * 2))
        (List.replicate (cap m * 2) 0, List.replicate (cap m * 2) stEmpty, m.occupancy) with
    | none => none
    | some acc =>
        some { m with pointers := acc.1, states := acc.2.1, occupancy := acc.2.2 }
  else some m

/-- `HashMap::insert`: `check_size()` first, then the insert probe from
`hash(key) % capacity`; on a non-`Filled` stop, append the record, point
the slot at it, bump `occupancy` only when the slot was `Empty`. -/
def hmInsert (m : HashMap) (k v : Nat) : Option HashMap := do
  let m1 ← checkSize m
  match ← probeIns m1 k (cap m1) (m1.hashf k % cap m1) with
  | InsStop.dup => some m1
  | InsStop.free pos =>
      some { m1 with
        pointers := m1.pointers.set pos m1.nextId,
        states := m1.states.set pos stFilled,
        values := m1.values ++ [(m1.nextId, k, v)],
        occupancy :=
          if m1.states.getD pos stEmpty = stEmpty then m1.occupancy + 1
          else m1.occupancy,
        nextId := m1.nextId + 1 }

/-- `HashMap::operator[]`: `check_size()`, the lookup probe, then
insert-with-default (value 0 models the value-initialised `ValueType()`)
when the stop is not `Filled`; returns the referenced value too. -/
def hmIndex (m : HashMap) (k : Nat) : Option (HashMap × Nat) := do
  let m1 ← checkSize m
  let pos ← probeFind m1 k (cap m1) (m1.hashf k % cap m1)
  if m1.states.getD pos stEmpty ≠ stFilled then
    some ({ m1 with
      pointers := m1.pointers.set pos m1.nextId,
      states := m1.states.set pos stFilled,
      values := m1.values ++ [(m1.nextId, k, 0)],
      occupancy :=
        if m1.states.getD pos stEmpty = stEmpty then m1.occupancy + 1
        else m1.occupancy,
      nextId := m1.nextId + 1 }, 0)
  else some (m1, slotVal m1 pos)

/-- `HashMap::at`: the lookup probe only; `some none` is the thrown
`std::out_of_range` (`KeyNotFound`), the outer `none` a probe that never
stops.  The table is not touched. -/
def hmAt (m : HashMap) (k : Nat) : Option (Option Nat) :=
  (probeFind m k (cap m) (m.hashf k % cap m)).map fun pos =>
    if m.states.getD pos stEmpty ≠ stFilled then none
    else some (slotVal m pos)

/-- `HashMap::erase`: the lookup probe; on a `Filled` stop, unlink the
referenced record from the list and mark the slot `Erased`. -/
def hmErase (m : HashMap) (k : Nat) : Option HashMap :=
  (probeFind m k (cap m) (m.hashf k % cap m)).map fun pos =>
    if m.states.getD pos stEmpty = stFilled then
      { m with
        values := m.values.eraseP fun r => r.1 = m.pointers.getD pos 0,
        states := m.states.set pos stErased }
    else m

/-- `HashMap::find`: the lookup probe; `some none` is the `end()`
sentinel, otherwise the referenced record's pair. -/
def hmFind (m : HashMap) (k : Nat) : Option (Option (Nat × Nat)) :=
  (probeFind m k (cap m) (m.hashf k % cap m)).map fun pos =>
    if m.states.getD pos stEmpty ≠ stFilled then none
    else some (slotKey m pos, slotVal m pos)

/-- The inner loop of `HashMap::clear`: from `hash(key) % capacity`,
reset every slot until an `Empty` one is met.  Each pass blanks its slot,
so `cap + 1` iterations always reach the stop; the fuel never truncates. -/
def clearChain (c : Nat) : Nat → List SlotState → Nat → List SlotState
  | 0, s, _ => s
  | fuel + 1, s, pos =>
    if s.getD pos stEmpty ≠ stEmpty then
      clearChain c fuel (s.set pos stEmpty) (nextPos c pos)
    else s

/-- `HashMap::clear`: walk every live record's chain back to `Empty`,
drop the list, zero the occupancy. -/
def hmClear (m : HashMap) : HashMap :=
  { m with
    states := m.values.foldl
      (fun s r => clearChain (cap m) (cap m + 1) s (m.hashf r.2.1 % cap m)) m.states,
    values := [],
    occupancy := 0 }

/-- A public mutating call. -/
inductive HOp where
  | ins (k v : Nat) : HOp
  | idx (k : Nat) : HOp
  | ers (k : Nat) : HOp
  | clr : HOp

def runOp (m : HashMap) : HOp → Option HashMap
  | HOp.ins k v => hmInsert m k v
  | HOp.idx k => (hmIndex m k).map fun p => p.1
  | HOp.ers k => hmErase m k
  | HOp.clr => some (hmClear m)

def runOps (h : Nat → Nat) (ops : List HOp) : Option HashMap :=
  ops.foldlM runOp (hmInit h)

/-- Tables reachable from a freshly constructed one by mutating calls. -/
inductive Reach : HashMap → Prop where
  | init : ∀ h : Nat → Nat, Reach (hmInit h)
  | step : ∀ {m m' : HashMap} (op : HOp), Reach m → runOp m op = some m' → Reach m'

/-- The copy constructor `HashMap(const HashMap&, Hash hash = Hash())`:
a fresh table with the *argument* hash (the default `Hash()` at a plain
copy), the source's records re-inserted in list order. -/
def hmCopy (other : HashMap) (h : Nat → Nat) : Option HashMap :=
  other.values.foldlM (fun acc r => hmInsert acc r.2.1 r.2.2) (hmInit h)

/-- A call sequence after which key 8 is present (mapped to 30) while an
`Erased` slot lies on its probe path in front of its `Filled` slot: the
bulk of the cluster at slot 0 was built over the tombstone that `clear`
left behind in slot 1. -/
def opsPre : List HOp :=
  [HOp.ins 1 10, HOp.ers 1, HOp.clr, HOp.ins 0 20, HOp.ins 8 30, HOp.ers 0]

def mPre : HashMap := (runOps id opsPre).getD (hmInit id)

/-- `mPre` after `insert(8, 40)`: the insert probe stops at the tombstone
in slot 0 without ever seeing the `Filled` slot 1 that holds key 8, so a
second record with key 8 is appended. -/
def mDup : HashMap := (hmInsert mPre 8 40).getD (hmInit id)

/-- Rounds of insert/erase/clear that leave every slot `Erased`: each
`clear` on an empty record list resets nothing, and re-filling tombstones
never raises `occupancy`, so no rehash intervenes. -/
def opsRounds : List HOp :=
  ((List.range 8).map fun r =>
    ((List.range (r + 1)).map fun k => HOp.ins k 0) ++
      ((List.range (r + 1)).map HOp.ers) ++ [HOp.clr]).flatten

/-- The reachable table with all 8 slots `Erased`, an empty record list
and `occupancy = 0`. -/
def mAllErased : HashMap := (runOps id opsRounds).getD (hmInit id)

/-- Positions passed through by a probe: `j` applications of `nextPos`. -/
def posAfter (c : Nat) : Nat → Nat → Nat
  | 0, pos => pos
  | j + 1, pos => posAfter c j (nextPos c pos)

/-- Slot/list consistency: every `Filled` slot stores the id of a live
record. -/
def goodSlots (m : HashMap) : Prop :=
  ∀ pos, m.states.getD pos stEmpty = stFilled →
    ∃ r ∈ m.values, r.1 = m.pointers.getD pos 0

/-- Structural well-formedness: positive capacity and a slot table of
exactly that length. -/
def hmWF (m : HashMap) : Prop := 0 < cap m ∧ m.states.length = cap m

/-- A small two-record table used to instantiate the copy theorem. -/
def mW : HashMap := (runOps id [HOp.ins 0 5, HOp.ins 9 7]).getD (hmInit id)

/-- A hash function other than `mW.hashf = id`: the copied table probes
with this one. -/
def dW : Nat → Nat := fun n => n + 1

end HM

/-! ## Hash table: probe termination, occupancy invariant, and the
concrete behaviours of the claims -/

namespace HM

open SlotState

theorem nextPos_lt {c : Nat} (pos : Nat) (hc : 0 < c) : nextPos c pos < c := by
  unfold nextPos; split <;> omega

theorem nextPos_eq {c : Nat} (pos : Nat) (h : pos < c) : nextPos c pos = (pos + 1) % c := by
  unfold nextPos
  split
  · have : pos + 1 = c := by omega
    rw [this, Nat.mod_self]
  · rw [Nat.mod_eq_of_lt (by omega)]

theorem posAfter_lt {c : Nat} (hc : 0 < c) :
    ∀ (j pos : Nat), pos < c → posAfter c j pos < c := by
  intro j
  induction j with
  | zero => intro pos h; exact h
  | succ j ih => intro pos h; exact ih _ (nextPos_lt pos hc)

theorem posAfter_mod {c : Nat} :
    ∀ (j pos : Nat), pos < c → posAfter c j pos = (pos + j) % c := by
  intro j
  induction j with
  | zero => intro pos h; simp [posAfter, Nat.mod_eq_of_lt h]
  | succ j ih =>
    intro pos h
    have hc : 0 < c := lt_of_le_of_lt (Nat.zero_le pos) h
    have hlt : nextPos c pos < c := nextPos_lt pos hc
    rw [posAfter, ih (nextPos c pos) hlt, nextPos_eq pos h, Nat.mod_add_mod]
    congr 1
    omega

theorem cover_mod {c i pos : Nat} (hi : i < c) (hpos : pos < c) :
    ∃ j, j < c ∧ (pos + j) % c = i := by
  have hc : 0 < c := lt_of_le_of_lt (Nat.zero_le i) hi
  refine ⟨(c + i - pos) % c, Nat.mod_lt _ hc, ?_⟩
  rw [Nat.add_mod_mod]
  have : pos + (c + i - pos) = c + i := by omega
  rw [this, Nat.add_mod_left, Nat.mod_eq_of_lt hi]

/-- A lookup probe that returns `none` met its continue-condition at every
position it passed. -/
theorem probeFind_none_all {m : HashMap} {k : Nat} :
    ∀ (fuel pos : Nat), probeFind m k fuel pos = none →
      ∀ j, j < fuel →
        (m.states.getD (posAfter (cap m) j pos) stEmpty = stErased ∨
          (m.states.getD (posAfter (cap m) j pos) stEmpty = stFilled ∧
            ¬ slotKey m (posAfter (cap m) j pos) = k)) := by
  intro fuel
  induction fuel with
  | zero => intro pos h j hj; omega
  | succ fuel ih =>
    intro pos h j hj
    rw [probeFind] at h
    split at h
    · rename_i hcond
      match j with
      | 0 => exact hcond
      | j + 1 => exact ih (nextPos (cap m) pos) h j (by omega)
    · cases h

theorem probeIns_none_all {m : HashMap} {k : Nat} :
    ∀ (fuel pos : Nat), probeIns m k fuel pos = none →
      ∀ j, j < fuel → m.states.getD (posAfter (cap m) j pos) stEmpty = stFilled := by
  intro fuel
  induction fuel with
  | zero => intro pos h j hj; omega
  | succ fuel ih =>
    intro pos h j hj
    rw [probeIns] at h
    split at h
    · rename_i hcond
      split at h
      · cases h
      · match j with
        | 0 => exact hcond
        | j + 1 => exact ih (nextPos (cap m) pos) h j (by omega)
    · cases h

/-- C9, amended: the insert probe (`insert`) stops whenever some slot in
range is non-`Filled`; the lookup probe (`operator[]`, `at`, `erase`,
`find`) stops whenever some slot in range is `Empty`.  Fuel `capacity`
visits every slot of the cyclic table once, and a probe that does not
stop within it never stops. -/
theorem hm_probe_termination (m : HashMap) (k pos : Nat) (hpos : pos < cap m) :
    ((∃ i, i < cap m ∧ m.states.getD i stEmpty = stEmpty) →
      (probeFind m k (cap m) pos).isSome = true) ∧
    ((∃ i, i < cap m ∧ m.states.getD i stEmpty ≠ stFilled) →
      (probeIns m k (cap m) pos).isSome = true) := by
  constructor
  · rintro ⟨i, hi, hemp⟩
    rcases heq : probeFind m k (cap m) pos with _ | q
    · exfalso
      obtain ⟨j, hj, hmod⟩ := cover_mod hi hpos
      have := probeFind_none_all (cap m) pos heq j hj
      rw [posAfter_mod j pos hpos, hmod, hemp] at this
      rcases this with h1 | ⟨h1, _⟩ <;> cases h1
    · rfl
  · rintro ⟨i, hi, hnf⟩
    rcases heq : probeIns m k (cap m) pos with _ | q
    · exfalso
      obtain ⟨j, hj, hmod⟩ := cover_mod hi hpos
      have := probeIns_none_all (cap m) pos heq j hj
      rw [posAfter_mod j pos hpos, hmod] at this
      exact hnf this
    · rfl

/-- C9 witness: on the freshly constructed table (all slots `Empty`)
both probes stop. -/
theorem hm_probe_termination_applied :
    (probeFind (hmInit id) 3 (cap (hmInit id)) 0).isSome = true ∧
    (probeIns (hmInit id) 3 (cap (hmInit id)) 0).isSome = true := by
  have h := hm_probe_termination (hmInit id) 3 0 (by decide)
  exact ⟨h.1 ⟨0, by decide, by decide⟩, h.2 ⟨0, by decide, by decide⟩⟩

/-- A table whose slots below capacity are all `Erased` defeats every
lookup probe, whatever the fuel: the continue-condition holds at every
slot, so the C++ loop never exits. -/
theorem probeFind_all_erased {m : HashMap} {k : Nat}
    (h : ∀ i, i < cap m → m.states.getD i stEmpty = stErased) :
    ∀ (fuel pos : Nat), pos < cap m → probeFind m k fuel pos = none := by
  intro fuel
  induction fuel with
  | zero => intro pos hpos; rfl
  | succ fuel ih =>
    intro pos hpos
    have hc : 0 < cap m := lt_of_le_of_lt (Nat.zero_le pos) hpos
    rw [probeFind, if_pos (Or.inl (h pos hpos))]
    exact ih _ (nextPos_lt pos hc)

/-- C9 counterexample: `mAllErased` is reachable, all its 8 slots are
non-`Filled` (they are `Erased`), yet the lookup probe of `find(7)`
never stops, at any fuel: the claim's condition does not make the
lookup-style loops terminate. -/
theorem hm_lookup_probe_diverges :
    (runOps id opsRounds).isSome = true ∧
    mAllErased.states = List.replicate 8 stErased ∧
    (∃ i, i < cap mAllErased ∧ mAllErased.states.getD i stEmpty ≠ stFilled) ∧
    hmFind mAllErased 7 = none ∧
    ∀ fuel pos, pos < cap mAllErased → probeFind mAllErased 7 fuel pos = none := by
  refine ⟨by decide, by decide, ⟨0, by decide, by decide⟩, ?_, ?_⟩
  · unfold hmFind
    rw [probeFind_all_erased (m := mAllErased) (k := 7) (by decide) (cap mAllErased)
      (mAllErased.hashf 7 % cap mAllErased) (by decide)]
    rfl
  · exact fun fuel pos h => probeFind_all_erased (by decide) fuel pos h

/-- C8: at the reachable all-`Erased` table, `at(5)` does not fail with
`KeyNotFound` for the absent key 5 — its probe loop never returns. -/
theorem hm_at_diverges_after_clear :
    (runOps id opsRounds).isSome = true ∧
    mAllErased.values = [] ∧
    hmAt mAllErased 5 = none ∧
    (∀ fuel pos, pos < cap mAllErased → probeFind mAllErased 5 fuel pos = none) := by
  refine ⟨by decide, by decide, ?_,
    fun fuel pos h => probeFind_all_erased (by decide) fuel pos h⟩
  unfold hmAt
  rw [probeFind_all_erased (m := mAllErased) (k := 5) (by decide) (cap mAllErased)
    (mAllErased.hashf 5 % cap mAllErased) (by decide)]
  rfl

/-- The pointer table's length survives the rehash fold. -/
theorem rehash_fold_len {h : Nat → Nat} {c : Nat} :
    ∀ (l : List (Nat × Nat × Nat)) (acc res : List Nat × List SlotState × Nat),
      l.foldlM (rehashStep h c) acc = some res → res.1.length = acc.1.length := by
  intro l
  induction l with
  | nil => intro acc res hr; cases hr; rfl
  | cons r l ih =>
    intro acc res hr
    rw [List.foldlM_cons] at hr
    unfold rehashStep at hr
    rcases hp : probeFree acc.2.1 c c (h r.2.1 % c) with _ | pos
    · rw [hp] at hr; cases hr
    · rw [hp] at hr
      simp only [Option.bind_some, Option.pure_def] at hr
      have := ih _ _ hr
      simpa using this

/-- The occupancy that the rehash fold leaves: untouched when the record
list is empty, otherwise 0 by the stray in-loop `occupancy = 0;`. -/
theorem rehash_fold_occ {h : Nat → Nat} {c : Nat} :
    ∀ (l : List (Nat × Nat × Nat)) (acc res : List Nat × List SlotState × Nat),
      l.foldlM (rehashStep h c) acc = some res → res.2.2 = acc.2.2 ∨ res.2.2 = 0 := by
  intro l
  induction l with
  | nil => intro acc res hr; cases hr; exact Or.inl rfl
  | cons r l ih =>
    intro acc res hr
    rw [List.foldlM_cons] at hr
    unfold rehashStep at hr
    rcases hp : probeFree acc.2.1 c c (h r.2.1 % c) with _ | pos
    · rw [hp] at hr; cases hr
    · rw [hp] at hr
      simp only [Option.bind_some, Option.pure_def] at hr
      rcases ih _ _ hr with h1 | h1
      · right; rw [h1]
      · right; exact h1

/-- `check_size` leaves the table alone below the threshold, and above
it doubles the capacity while not increasing the occupancy; the record
list, hash and id counter always stay. -/
theorem checkSize_spec {m m1 : HashMap} (h : checkSize m = some m1) :
    (m1.values = m.values ∧ m1.hashf = m.hashf ∧ m1.nextId = m.nextId) ∧
      ((m1 = m ∧ m.occupancy * 4 < cap m) ∨
        (cap m1 = 2 * cap m ∧ m1.occupancy ≤ m.occupancy ∧ cap m ≤ m.occupancy * 4)) := by
  unfold checkSize at h
  split at h
  · rename_i hge
    rcases hr : m.values.foldlM (rehashStep m.hashf (cap m * 2))
        (List.replicate (cap m * 2) 0, List.replicate (cap m * 2) stEmpty, m.occupancy)
        with _ | acc
    · rw [hr] at h; cases h
    · rw [hr] at h
      cases h
      refine ⟨⟨rfl, rfl, rfl⟩, Or.inr ⟨?_, ?_, hge⟩⟩
      · have := rehash_fold_len _ _ _ hr
        simp only [List.length_replicate] at this
        show acc.1.length = 2 * cap m
        omega
      · rcases rehash_fold_occ _ _ _ hr with h1 | h1 <;> simp [h1]
  · rename_i hlt
    cases h
    exact ⟨⟨rfl, rfl, rfl⟩, Or.inl ⟨rfl, by omega⟩⟩

/-- Occupancy/capacity step of `insert`. -/
theorem hmInsert_occ {m m' : HashMap} {k v : Nat} (h : hmInsert m k v = some m')
    (hm : 0 < cap m ∧ 4 ∣ cap m ∧ m.occupancy * 4 ≤ cap m) :
    0 < cap m' ∧ 4 ∣ cap m' ∧ m'.occupancy * 4 ≤ cap m' := by
  unfold hmInsert at h
  rcases hc : checkSize m with _ | m1
  · rw [hc] at h; cases h
  · rw [hc] at h
    obtain ⟨-, hcase⟩ := checkSize_spec hc
    have h1 : 0 < cap m1 ∧ 4 ∣ cap m1 ∧ m1.occupancy * 4 < cap m1 := by
      rcases hcase with ⟨rfl, hlt⟩ | ⟨hcap, hocc, hge⟩
      · exact ⟨hm.1, hm.2.1, hlt⟩
      · refine ⟨by omega, ?_, by omega⟩
        rw [hcap]; exact Dvd.dvd.mul_left hm.2.1 2
    simp only [Option.bind_eq_bind, Option.some_bind] at h
    rcases hp : probeIns m1 k (cap m1) (m1.hashf k % cap m1) with _ | st
    · rw [hp] at h; cases h
    · rw [hp] at h
      rcases st with _ | pos
      · simp only [Option.some_bind] at h
        cases h
        exact ⟨h1.1, h1.2.1, by omega⟩
      · simp only [Option.some_bind] at h
        cases h
        have hcap : cap { m1 with
            pointers := m1.pointers.set pos m1.nextId,
            states := m1.states.set pos stFilled,
            values := m1.values ++ [(m1.nextId, k, v)],
            occupancy :=
              if m1.states.getD pos stEmpty = stEmpty then m1.occupancy + 1
              else m1.occupancy,
            nextId := m1.nextId + 1 } = cap m1 := by
          simp [cap]
        rw [hcap]
        refine ⟨h1.1, h1.2.1, ?_⟩
        obtain ⟨-, h4, hlt⟩ := h1
        split
        · show (m1.occupancy + 1) * 4 ≤ cap m1
          omega
        · show m1.occupancy * 4 ≤ cap m1
          omega

/-- Occupancy/capacity step of `operator[]`. -/
theorem hmIndex_occ {m m' : HashMap} {k : Nat} {w : Nat}
    (h : hmIndex m k = some (m', w))
    (hm : 0 < cap m ∧ 4 ∣ cap m ∧ m.occupancy * 4 ≤ cap m) :
    0 < cap m' ∧ 4 ∣ cap m' ∧ m'.occupancy * 4 ≤ cap m' := by
  unfold hmIndex at h
  rcases hc : checkSize m with _ | m1
  · rw [hc] at h; cases h
  · rw [hc] at h
    obtain ⟨-, hcase⟩ := checkSize_spec hc
    have h1 : 0 < cap m1 ∧ 4 ∣ cap m1 ∧ m1.occupancy * 4 < cap m1 := by
      rcases hcase with ⟨rfl, hlt⟩ | ⟨hcap, hocc, hge⟩
      · exact ⟨hm.1, hm.2.1, hlt⟩
      · refine ⟨by omega, ?_, by omega⟩
        rw [hcap]; exact Dvd.dvd.mul_left hm.2.1 2
    simp only [Option.bind_eq_bind, Option.some_bind] at h
    rcases hp : probeFind m1 k (cap m1) (m1.hashf k % cap m1) with _ | pos
    · rw [hp] at h; cases h
    · rw [hp] at h
      simp only [Option.some_bind] at h
      obtain ⟨-, h4, hlt⟩ := h1
      split at h
      · cases h
        have hcap : cap { m1 with
            pointers := m1.pointers.set pos m1.nextId,
            states := m1.states.set pos stFilled,
            values := m1.values ++ [(m1.nextId, k, 0)],
            occupancy :=
              if m1.states.getD pos stEmpty = stEmpty then m1.occupancy + 1
              else m1.occupancy,
            nextId := m1.nextId + 1 } = cap m1 := by
          simp [cap]
        rw [hcap]
        refine ⟨by omega, h4, ?_⟩
        split
        · show (m1.occupancy + 1) * 4 ≤ cap m1
          omega
        · show m1.occupancy * 4 ≤ cap m1
          omega
      · cases h
        exact ⟨by omega, h4, by omega⟩

/-- `erase` never touches occupancy or the pointer table's length. -/
theorem hmErase_occ {m m' : HashMap} {k : Nat} (h : hmErase m k = some m') :
    cap m' = cap m ∧ m'.occupancy = m.occupancy := by
  unfold hmErase at h
  rcases hp : probeFind m k (cap m) (m.hashf k % cap m) with _ | pos
  · rw [hp] at h; cases h
  · rw [hp] at h
    simp only [Option.map_some'] at h
    cases h
    split
    · exact ⟨by simp [cap], rfl⟩
    · exact ⟨rfl, rfl⟩

/-- `clear` zeroes occupancy and keeps the pointer table. -/
theorem hmClear_occ (m : HashMap) :
    cap (hmClear m) = cap m ∧ (hmClear m).occupancy = 0 := ⟨rfl, rfl⟩

/-- On every reachable table the capacity is a positive multiple of 4
and `occupancy * 4 ≤ capacity`. -/
theorem reach_occ_inv {m : HashMap} (h : Reach m) :
    0 < cap m ∧ 4 ∣ cap m ∧ m.occupancy * 4 ≤ cap m := by
  induction h with
  | init h =>
    refine ⟨?_, ?_, ?_⟩ <;> simp [cap, hmInit] <;> omega
  | step op hr hop ih =>
    rename_i m0 m1
    cases op with
    | ins k v =>
      simp only [runOp] at hop
      exact hmInsert_occ hop ih
    | idx k =>
      simp only [runOp] at hop
      rcases hq : hmIndex m0 k with _ | p
      · rw [hq] at hop; cases hop
      · rw [hq] at hop
        simp only [Option.map_some'] at hop
        cases hop
        exact hmIndex_occ (w := p.2) (by rw [hq]) ih
    | ers k =>
      simp only [runOp] at hop
      obtain ⟨hc, ho⟩ := hmErase_occ hop
      omega
    | clr =>
      simp only [runOp] at hop
      cases hop
      obtain ⟨hc, ho⟩ := hmClear_occ m0
      omega

/-- C5, amended: after every mutating operation `occupancy * 4 ≤ capacity`
(the strict bound is only re-established by `check_size` at the start of
the next insert-style call). -/
theorem hm_occupancy_bound (m : HashMap) (h : Reach m) :
    m.occupancy * 4 ≤ cap m := (reach_occ_inv h).2.2

/-- C5 witness. -/
theorem hm_occupancy_bound_applied :
    (hmInit id).occupancy * 4 ≤ cap (hmInit id) :=
  hm_occupancy_bound (hmInit id) (Reach.init id)

/-- C5 counterexample: two fresh inserts end with `occupancy * 4 = 8 =
capacity`, so the claimed strict bound `occupancy * 4 < capacity` fails
right after the second insert returns. -/
theorem hm_occupancy_strict_fails :
    (runOps id [HOp.ins 0 0, HOp.ins 1 1]).map (fun m => (m.occupancy, cap m)) =
      some (2, 8) ∧ ¬ (2 * 4 < 8) := ⟨by decide, by omega⟩

/-- C3: after the reachable sequence `opsPre` the table holds exactly the
record `(8, 30)`; inserting `(8, 40)` (key 8 present) appends a second
record for key 8, and the following `erase(8)` removes only the newer
record — iteration still yields `(8, 30)` although key 8 was erased. -/
theorem hm_iteration_lists_erased_key :
    (runOps id opsPre).map pairs = some [(8, 30)] ∧
    (hmInsert mPre 8 40).map pairs = some [(8, 30), (8, 40)] ∧
    (hmErase mDup 8).map pairs = some [(8, 30)] := by decide

/-- C4: in `mPre` (reachable by `opsPre`) key 8 is present, mapped to 30;
`insert(8, 40)` is not a no-op: the record list grows from one record to
two. -/
theorem hm_insert_present_key_mutates :
    (runOps id opsPre).map (fun m => (pairs m, hmAt m 8, m.values.length)) =
      some ([(8, 30)], some (some 30), 1) ∧
    (hmInsert mPre 8 40).map (fun m => m.values.length) = some 2 := by decide

/-- C6: growth triggered with two live records doubles the capacity to 16,
re-probes both records, leaves the record list unchanged — and leaves
`occupancy = 0`, not 2, the number of live records. -/
theorem hm_rehash_occupancy_zero :
    ((runOps id [HOp.ins 0 10, HOp.ins 1 20]).bind checkSize).map
      (fun m => (cap m, pairs m, m.occupancy, m.values.length)) =
      some (16, [(0, 10), (1, 20)], 0, 2) ∧ (0 : Nat) ≠ 2 := ⟨by decide, by omega⟩

/-- C7: after `insert(0, 1); erase(0); clear()` the record list is empty
and occupancy 0, but slot 0 is still `Erased`, not `Empty`: `clear` only
walks live records' chains and the erased key's cluster holds none. -/
theorem hm_clear_keeps_tombstone :
    (runOps id [HOp.ins 0 1, HOp.ers 0, HOp.clr]).map
      (fun m => (m.states, pairs m, m.occupancy)) =
      some (stErased :: List.replicate 7 stEmpty, [], 0) := by decide

end HM

/-! ## Hash table: the copy constructor -/

namespace HM

open SlotState

theorem slotKey_mem {m : HashMap} {pos : Nat} (hg : goodSlots m)
    (hf : m.states.getD pos stEmpty = stFilled) :
    slotKey m pos ∈ m.values.map fun r => r.2.1 := by
  obtain ⟨r, hr, hid⟩ := hg pos hf
  unfold slotKey
  rcases hfind : m.values.find? (fun r => r.1 = m.pointers.getD pos 0) with _ | r'
  · exfalso
    have : ∃ a ∈ m.values, ((fun r => decide (r.1 = m.pointers.getD pos 0)) a) = true := by
      exact ⟨r, hr, by simp [hid]⟩
    rw [← List.find?_isSome] at this
    rw [hfind] at this
    cases this
  · have hmem := List.mem_of_find?_eq_some hfind
    rw [hfind]
    exact List.mem_map_of_mem _ hmem

theorem probeFree_lt {s : List SlotState} {c : Nat} :
    ∀ (fuel pos q : Nat), probeFree s c fuel pos = some q → pos < c → q < c := by
  intro fuel
  induction fuel with
  | zero => intro pos q hp hlt; cases hp
  | succ fuel ih =>
    intro pos q hp hlt
    rw [probeFree] at hp
    split at hp
    · exact ih _ _ hp (nextPos_lt pos (lt_of_le_of_lt (Nat.zero_le pos) hlt))
    · cases hp; exact hlt

/-- The rehash fold keeps every `Filled` slot pointing at an id drawn
from `V`, provided the records folded over come from `V`. -/
theorem rehash_fold_good {h : Nat → Nat} {c : Nat} {V : List (Nat × Nat × Nat)} (hc : 0 < c) :
    ∀ (l : List (Nat × Nat × Nat)) (acc res : List Nat × List SlotState × Nat),
      (∀ r ∈ l, r ∈ V) →
      acc.1.length = c → acc.2.1.length = c →
      (∀ pos, acc.2.1.getD pos stEmpty = stFilled → ∃ r ∈ V, r.1 = acc.1.getD pos 0) →
      l.foldlM (rehashStep h c) acc = some res →
      ∀ pos, res.2.1.getD pos stEmpty = stFilled → ∃ r ∈ V, r.1 = res.1.getD pos 0 := by
  intro l
  induction l with
  | nil =>
    intro acc res hsub hl1 hl2 hacc hr
    cases hr
    exact hacc
  | cons r l ih =>
    intro acc res hsub hl1 hl2 hacc hr
    rw [List.foldlM_cons] at hr
    unfold rehashStep at hr
    rcases hp : probeFree acc.2.1 c c (h r.2.1 % c) with _ | pos
    · rw [hp] at hr; cases hr
    · rw [hp] at hr
      simp only [Option.bind_some, Option.pure_def] at hr
      have hposc : pos < c := probeFree_lt c _ pos hp (Nat.mod_lt _ hc)
      refine ih _ _ (fun a ha => hsub a (List.mem_cons_of_mem r ha))
        (by simpa using hl1) (by simpa using hl2) ?_ hr
      intro q hq
      by_cases hpq : pos = q
      · subst hpq
        refine ⟨r, hsub r (List.mem_cons_self r l), ?_⟩
        simp only [List.getD_eq_getElem?_getD,
          List.getElem?_set_self (by omega : pos < acc.1.length)]
        rfl
      · have hq' : acc.2.1.getD q stEmpty = stFilled := by
          rw [List.getD_eq_getElem?_getD, List.getElem?_set_ne hpq] at hq
          rw [List.getD_eq_getElem?_getD]
          exact hq
        obtain ⟨r', hr', hid⟩ := hacc q hq'
        refine ⟨r', hr', ?_⟩
        rw [List.getD_eq_getElem?_getD, List.getElem?_set_ne hpq, ← List.getD_eq_getElem?_getD]
        exact hid

/-- The slot table's length also survives the rehash fold. -/
theorem rehash_fold_len2 {h : Nat → Nat} {c : Nat} :
    ∀ (l : List (Nat × Nat × Nat)) (acc res : List Nat × List SlotState × Nat),
      l.foldlM (rehashStep h c) acc = some res → res.2.1.length = acc.2.1.length := by
  intro l
  induction l with
  | nil => intro acc res hr; cases hr; rfl
  | cons r l ih =>
    intro acc res hr
    rw [List.foldlM_cons] at hr
    unfold rehashStep at hr
    rcases hp : probeFree acc.2.1 c c (h r.2.1 % c) with _ | pos
    · rw [hp] at hr; cases hr
    · rw [hp] at hr
      simp only [Option.bind_some, Option.pure_def] at hr
      have := ih _ _ hr
      simpa using this

theorem checkSize_wf {m m1 : HashMap} (h : checkSize m = some m1) (hw : hmWF m) :
    hmWF m1 := by
  unfold checkSize at h
  split at h
  · rcases hr : m.values.foldlM (rehashStep m.hashf (cap m * 2))
        (List.replicate (cap m * 2) 0, List.replicate (cap m * 2) stEmpty, m.occupancy)
        with _ | acc
    · rw [hr] at h; cases h
    · rw [hr] at h
      cases h
      have h1 := rehash_fold_len _ _ _ hr
      have h2 := rehash_fold_len2 _ _ _ hr
      simp only [List.length_replicate] at h1 h2
      constructor
      · show 0 < acc.1.length
        have := hw.1
        omega
      · show acc.2.1.length = acc.1.length
        omega
  · cases h; exact hw

theorem checkSize_good {m m1 : HashMap} (h : checkSize m = some m1)
    (hcap : 0 < cap m) (hg : goodSlots m) : goodSlots m1 := by
  unfold checkSize at h
  split at h
  · rcases hr : m.values.foldlM (rehashStep m.hashf (cap m * 2))
        (List.replicate (cap m * 2) 0, List.replicate (cap m * 2) stEmpty, m.occupancy)
        with _ | acc
    · rw [hr] at h; cases h
    · rw [hr] at h
      cases h
      intro pos hpos
      refine rehash_fold_good (by omega) m.values _ _ (fun a ha => ha) (by simp)
        (by simp) ?_ hr pos hpos
      intro q hq
      exfalso
      rw [List.getD_eq_getElem?_getD, List.getElem?_replicate] at hq
      split at hq <;> simp_all
  · cases h; exact hg

theorem probeIns_lt {m : HashMap} {k : Nat} :
    ∀ (fuel pos q : Nat), probeIns m k fuel pos = some (InsStop.free q) →
      pos < cap m → q < cap m := by
  intro fuel
  induction fuel with
  | zero => intro pos q hp hlt; cases hp
  | succ fuel ih =>
    intro pos q hp hlt
    rw [probeIns] at hp
    split at hp
    · split at hp
      · cases hp
      · exact ih _ _ hp (nextPos_lt pos (lt_of_le_of_lt (Nat.zero_le pos) hlt))
    · cases hp; exact hlt

theorem probeIns_dup {m : HashMap} {k : Nat} :
    ∀ (fuel pos : Nat), probeIns m k fuel pos = some InsStop.dup →
      ∃ q, m.states.getD q stEmpty = stFilled ∧ slotKey m q = k := by
  intro fuel
  induction fuel with
  | zero => intro pos hp; cases hp
  | succ fuel ih =>
    intro pos hp
    rw [probeIns] at hp
    split at hp
    · rename_i hfill
      split at hp
      · rename_i hkey
        exact ⟨pos, hfill, hkey⟩
      · exact ih _ hp
    · cases hp

/-- Inserting a key that is not in the record list of a consistent table
appends exactly one record and keeps the table consistent. -/
theorem hmInsert_fresh {m m' : HashMap} {k v : Nat}
    (h : hmInsert m k v = some m') (hg : goodSlots m) (hw : hmWF m)
    (hk : k ∉ m.values.map fun r => r.2.1) :
    (m'.values.map fun r => (r.2.1, r.2.2)) =
      (m.values.map fun r => (r.2.1, r.2.2)) ++ [(k, v)] ∧
    (m'.values.map fun r => r.2.1) = (m.values.map fun r => r.2.1) ++ [k] ∧
    goodSlots m' ∧ hmWF m' ∧ m'.hashf = m.hashf := by
  unfold hmInsert at h
  rcases hc : checkSize m with _ | m1
  · rw [hc] at h; cases h
  · rw [hc] at h
    obtain ⟨⟨hval, hhash, -⟩, -⟩ := checkSize_spec hc
    have hg1 : goodSlots m1 := checkSize_good hc hw.1 hg
    have hw1 : hmWF m1 := checkSize_wf hc hw
    have hk1 : k ∉ m1.values.map fun r => r.2.1 := by rw [hval]; exact hk
    simp only [Option.bind_eq_bind, Option.some_bind] at h
    rcases hp : probeIns m1 k (cap m1) (m1.hashf k % cap m1) with _ | st
    · rw [hp] at h; cases h
    · rw [hp] at h
      rcases st with _ | pos
      · exfalso
        obtain ⟨q, hqf, hqk⟩ := probeIns_dup _ _ hp
        exact hk1 (hqk ▸ slotKey_mem hg1 hqf)
      · simp only [Option.some_bind] at h
        have hpos : pos < cap m1 :=
          probeIns_lt _ _ _ hp (Nat.mod_lt _ hw1.1)
        cases h
        refine ⟨?_, ?_, ?_, ?_, ?_⟩
        · show ((m1.values ++ [(m1.nextId, k, v)]).map fun r => (r.2.1, r.2.2)) = _
          rw [List.map_append, hval]
          rfl
        · show ((m1.values ++ [(m1.nextId, k, v)]).map fun r => r.2.1) = _
          rw [List.map_append, hval]
          rfl
        · intro q hq
          by_cases hpq : pos = q
          · subst hpq
            refine ⟨(m1.nextId, k, v),
              List.mem_append_right _ (List.mem_singleton_self _), ?_⟩
            show m1.nextId = (m1.pointers.set pos m1.nextId).getD pos 0
            rw [List.getD_eq_getElem?_getD,
              List.getElem?_set_self (by rw [← cap]; omega)]
            rfl
          · have hq' : m1.states.getD q stEmpty = stFilled := by
              have hset : (m1.states.set pos stFilled).getD q stEmpty = stFilled := hq
              rw [List.getD_eq_getElem?_getD, List.getElem?_set_ne hpq,
                ← List.getD_eq_getElem?_getD] at hset
              exact hset
            obtain ⟨r', hr', hid⟩ := hg1 q hq'
            refine ⟨r', List.mem_append_left _ hr', ?_⟩
            show r'.1 = (m1.pointers.set pos m1.nextId).getD q 0
            rw [List.getD_eq_getElem?_getD, List.getElem?_set_ne hpq,
              ← List.getD_eq_getElem?_getD]
            exact hid
        · constructor
          · show 0 < (m1.pointers.set pos m1.nextId).length
            simp only [List.length_set]
            exact hw1.1
          · show (m1.states.set pos stFilled).length = (m1.pointers.set pos m1.nextId).length
            simp only [List.length_set]
            exact hw1.2
        · show m1.hashf = m.hashf
          exact hhash

/-- Fold of the copy constructor over a duplicate-free record list. -/
theorem hmCopy_fold :
    ∀ (L : List (Nat × Nat × Nat)) (acc m' : HashMap),
      goodSlots acc → hmWF acc →
      ((L.map fun r => r.2.1).Nodup) →
      (∀ r ∈ L, r.2.1 ∉ acc.values.map fun s => s.2.1) →
      L.foldlM (fun a r => hmInsert a r.2.1 r.2.2) acc = some m' →
      (m'.values.map fun r => (r.2.1, r.2.2)) =
        (acc.values.map fun r => (r.2.1, r.2.2)) ++ (L.map fun r => (r.2.1, r.2.2)) ∧
      m'.hashf = acc.hashf := by
  intro L
  induction L with
  | nil =>
    intro acc m' hg hw hnd hdisj hr
    cases hr
    exact ⟨by simp, rfl⟩
  | cons r L ih =>
    intro acc m' hg hw hnd hdisj hr
    rw [List.foldlM_cons] at hr
    rcases h1 : hmInsert acc r.2.1 r.2.2 with _ | acc1
    · rw [h1] at hr; cases hr
    · rw [h1] at hr
      obtain ⟨hpairs, hkeys, hg1, hw1, hh1⟩ :=
        hmInsert_fresh h1 hg hw (hdisj r (List.mem_cons_self r L))
      rw [List.map_cons] at hnd
      obtain ⟨hhead, hnd'⟩ := List.nodup_cons.mp hnd
      have hdisj' : ∀ s ∈ L, s.2.1 ∉ acc1.values.map fun u => u.2.1 := by
        intro s hs
        rw [hkeys]
        intro hmem
        rcases List.mem_append.mp hmem with hold | hnew
        · exact hdisj s (List.mem_cons_of_mem r hs) hold
        · rw [List.mem_singleton] at hnew
          exact hhead (hnew ▸ List.mem_map_of_mem (fun u => u.2.1) hs)
      obtain ⟨hp2, hh2⟩ := ih acc1 m' hg1 hw1 hnd' hdisj' hr
      constructor
      · rw [hp2, hpairs, List.map_cons, List.append_assoc]
        rfl
      · rw [hh2, hh1]

/-- C10, amended: when the source's record list has pairwise-distinct
keys, the copy holds the same key/value pairs in the same order, and its
hash function is the constructor's `hash` argument — the default
`Hash()` at a plain copy — not the source's. -/
theorem hm_copy_same_pairs (m : HashMap) (d : Nat → Nat)
    (hnd : (m.values.map fun r => r.2.1).Nodup) (m' : HashMap)
    (hc : hmCopy m d = some m') :
    pairs m' = pairs m ∧ m'.hashf = d := by
  unfold hmCopy at hc
  have hg : goodSlots (hmInit d) := by
    intro pos hq
    exfalso
    rw [hmInit] at hq
    rw [List.getD_eq_getElem?_getD, List.getElem?_replicate] at hq
    split at hq <;> simp_all
  have hw : hmWF (hmInit d) := by
    constructor
    · show (0 : Nat) < 8
      omega
    · rfl
  obtain ⟨hp, hh⟩ := hmCopy_fold m.values (hmInit d) m' hg hw hnd
    (by intro r hr; rw [hmInit]; simp) hc
  constructor
  · show m'.values.map (fun r => (r.2.1, r.2.2)) = pairs m
    rw [hp, hmInit]
    rfl
  · rw [hh]
    rfl

/-- C10 witness: copying a concrete two-record table with a different
default hash keeps the pairs and takes the new hash. -/
theorem hm_copy_same_pairs_applied :
    ∃ m', hmCopy mW dW = some m' ∧ pairs m' = pairs mW ∧ m'.hashf = dW := by
  have hs : (hmCopy mW dW).isSome = true := by decide
  rcases heq : hmCopy mW dW with _ | m'
  · rw [heq] at hs; cases hs
  · exact ⟨m', rfl, hm_copy_same_pairs mW dW (by decide) m' heq⟩

/-- C10 counterexample: copying the reachable table whose record list
holds key 8 twice (the tombstone insert bug) drops the second record —
the copy does not hold the same pairs as the source. -/
theorem hm_copy_drops_record :
    (runOps id (opsPre ++ [HOp.ins 8 40])).map pairs = some [(8, 30), (8, 40)] ∧
    ((runOps id (opsPre ++ [HOp.ins 8 40])).bind fun m => hmCopy m id).map pairs =
      some [(8, 30)] := by decide

end HM

/-! ## Ordered tree: the iterator walks the in-order sequence -/

namespace Avl

open Tree

theorem inorder_ne_nil {t : Tree} (h : t ≠ nil) : inorder t ≠ [] := by
  cases t with
  | nil => exact absurd rfl h
  | node l v r hh =>
    simp [inorder]

theorem leftmostLoc_spec :
    ∀ (t : Tree) (ctx : List Frame), t ≠ nil →
      ∃ it, leftmostLoc t ctx = some it ∧ it.cur ≠ nil ∧
        toVisit it = inorder t ++ ctxRest ctx := by
  intro t
  induction t with
  | nil => intro ctx h; exact absurd rfl h
  | node l v r hh ihl ihr =>
    intro ctx h
    cases l with
    | nil =>
      refine ⟨⟨node nil v r hh, ctx⟩, rfl, by simp, ?_⟩
      simp [toVisit, inorder]
    | node a b c d =>
      obtain ⟨it, heq, hne, hvisit⟩ := ihl (Frame.fromLeft v hh r :: ctx) (by simp)
      refine ⟨it, heq, hne, ?_⟩
      rw [hvisit]
      simp [ctxRest, inorder]

theorem climbUp_spec :
    ∀ (ctx : List Frame) (t : Tree),
      (climbUp t ctx = none → ctxRest ctx = []) ∧
      (∀ it, climbUp t ctx = some it → it.cur ≠ nil ∧ toVisit it = ctxRest ctx) := by
  intro ctx
  induction ctx with
  | nil =>
    intro t
    exact ⟨fun _ => rfl, fun it h => by cases h⟩
  | cons f ctx ih =>
    intro t
    cases f with
    | fromLeft v hh r =>
      constructor
      · intro h; cases h
      · intro it h
        cases h
        exact ⟨by simp, by simp [toVisit, ctxRest]⟩
    | fromRight l v hh =>
      constructor
      · intro h
        show ctxRest (Frame.fromRight l v hh :: ctx) = []
        rw [ctxRest]
        exact (ih (node l v t hh)).1 h
      · intro it h
        refine ⟨((ih (node l v t hh)).2 it h).1, ?_⟩
        rw [((ih (node l v t hh)).2 it h).2]
        rfl

theorem succLoc_spec (l : Tree) (v : Nat) (r : Tree) (hh : Nat) (ctx : List Frame) :
    (succLoc ⟨node l v r hh, ctx⟩ = none → inorder r ++ ctxRest ctx = []) ∧
    (∀ it, succLoc ⟨node l v r hh, ctx⟩ = some it →
      it.cur ≠ nil ∧ toVisit it = inorder r ++ ctxRest ctx) := by
  cases r with
  | nil =>
    constructor
    · intro h
      show inorder nil ++ ctxRest ctx = []
      rw [inorder, List.nil_append]
      exact (climbUp_spec ctx (node l v nil hh)).1 h
    · intro it h
      refine ⟨((climbUp_spec ctx (node l v nil hh)).2 it h).1, ?_⟩
      rw [((climbUp_spec ctx (node l v nil hh)).2 it h).2]
      rw [inorder, List.nil_append]
  | node a b c d =>
    obtain ⟨it, heq, hne, hvisit⟩ :=
      leftmostLoc_spec (node a b c d) (Frame.fromRight l v hh :: ctx) (by simp)
    constructor
    · intro h
      rw [succLoc] at h
      rw [heq] at h
      cases h
    · intro it' h
      rw [succLoc] at h
      rw [heq] at h
      cases h
      refine ⟨hne, ?_⟩
      rw [hvisit]
      rfl

theorem iterFrom_toVisit :
    ∀ (n : Nat) (it : SetIter), it.cur ≠ nil → n = (toVisit it).length →
      iterFrom n it = toVisit it := by
  intro n
  induction n with
  | zero =>
    intro it hne hlen
    rcases it with ⟨t, ctx⟩
    cases t with
    | nil => exact absurd rfl hne
    | node l v r hh => simp [toVisit] at hlen
  | succ n ih =>
    intro it hne hlen
    rcases it with ⟨t, ctx⟩
    cases t with
    | nil => exact absurd rfl hne
    | node l v r hh =>
      rw [iterFrom]
      have hval : locVal ⟨node l v r hh, ctx⟩ = v := rfl
      have hvisit : toVisit ⟨node l v r hh, ctx⟩ = v :: (inorder r ++ ctxRest ctx) := rfl
      rw [hvisit] at hlen ⊢
      obtain ⟨hnone, hsome⟩ := succLoc_spec l v r hh ctx
      rcases hs : succLoc ⟨node l v r hh, ctx⟩ with _ | it2
      · simp only [hval, hs]
        rw [hnone hs]
      · obtain ⟨hne2, hv2⟩ := hsome it2 hs
        have hlen2 : n = (toVisit it2).length := by
          rw [hv2]
          simp only [List.length_cons] at hlen
          omega
        simp only [hval, hs]
        rw [ih it2 hne2 hlen2, hv2]

/-- The full iteration from `begin()` is exactly the in-order listing. -/
theorem iterAll_eq_inorder (t : Tree) : iterAll t = inorder t := by
  cases ht : t with
  | nil => rfl
  | node l v r hh =>
    rw [iterAll]
    obtain ⟨it, heq, hne, hvisit⟩ := leftmostLoc_spec (node l v r hh) [] (by simp)
    have hv : toVisit it = inorder (node l v r hh) := by
      rw [hvisit, ctxRest, List.append_nil]
    rw [beginLoc, heq]
    show iterFrom (inorder (node l v r hh)).length it = inorder (node l v r hh)
    rw [iterFrom_toVisit _ it hne (by rw [hv]), hv]

end Avl

namespace Avl

open Tree

theorem inorder_updateHeight (t : Tree) : inorder (updateHeight t) = inorder t := by
  cases t <;> rfl

theorem inorder_rotateLeft (t : Tree) : inorder (rotateLeft t) = inorder t := by
  cases t with
  | nil => rfl
  | node l v r hh =>
    cases r with
    | nil => rfl
    | node m w n hb => simp [rotateLeft, inorder, List.append_assoc]

theorem inorder_rotateRight (t : Tree) : inorder (rotateRight t) = inorder t := by
  cases t with
  | nil => rfl
  | node l v r hh =>
    cases l with
    | nil => rfl
    | node k u m hb => simp [rotateRight, inorder, List.append_assoc]

theorem inorder_bigRotateLeft (t : Tree) : inorder (bigRotateLeft t) = inorder t := by
  cases t with
  | nil => rfl
  | node l v r hh =>
    rw [bigRotateLeft, inorder_rotateLeft, inorder, inorder, inorder_rotateRight]

theorem inorder_bigRotateRight (t : Tree) : inorder (bigRotateRight t) = inorder t := by
  cases t with
  | nil => rfl
  | node l v r hh =>
    rw [bigRotateRight, inorder_rotateRight, inorder, inorder, inorder_rotateLeft]

theorem inorder_balanceNode (t : Tree) : inorder (balanceNode t) = inorder t := by
  cases t with
  | nil => rfl
  | node l v r hh =>
    rw [balanceNode]
    split
    · split
      · rw [inorder_bigRotateLeft]
      · rw [inorder_rotateLeft]
    · split
      · split
        · rw [inorder_bigRotateRight]
        · rw [inorder_rotateRight]
      · rfl

theorem nodeEq_iff {a b : Nat} : nodeEq a b ↔ a = b := by
  unfold nodeEq; omega

theorem insertValue_mem {t : Tree} {v x : Nat}
    (h : x ∈ inorder (insertValue t v)) : x ∈ inorder t ∨ x = v := by
  induction t with
  | nil =>
    rw [insertValue, inorder, inorder] at h
    simp at h
    exact Or.inr h
  | node l y r hh ihl ihr =>
    rw [insertValue] at h
    split at h
    · exact Or.inl h
    · rename_i hne
      split at h
      · rw [inorder_balanceNode, inorder_updateHeight, inorder] at h
        rcases List.mem_append.mp h with h1 | h1
        · rcases ihl h1 with h2 | h2
          · exact Or.inl (List.mem_append_left _ h2)
          · exact Or.inr h2
        · exact Or.inl (List.mem_append_right _ h1)
      · rw [inorder_balanceNode, inorder_updateHeight, inorder] at h
        rcases List.mem_append.mp h with h1 | h1
        · exact Or.inl (List.mem_append_left _ h1)
        · rcases List.mem_cons.mp h1 with h2 | h2
          · exact Or.inl (List.mem_append_right _ (h2 ▸ List.mem_cons_self y _))
          · rcases ihr h2 with h3 | h3
            · exact Or.inl (List.mem_append_right _ (List.mem_cons_of_mem y h3))
            · exact Or.inr h3

theorem ordered_node {l : Tree} {x : Nat} {r : Tree} {hh : Nat} :
    ordered (node l x r hh) ↔
      ordered l ∧ ordered r ∧ (∀ a ∈ inorder l, a < x) ∧ (∀ b ∈ inorder r, x < b) ∧
        (∀ a ∈ inorder l, ∀ b ∈ inorder r, a < b) := by
  rw [ordered, inorder, List.pairwise_append]
  rw [List.pairwise_cons]
  constructor
  · rintro ⟨h1, ⟨h2, h3⟩, h4⟩
    refine ⟨h1, h3, ?_, h2, ?_⟩
    · intro a ha
      exact h4 a ha x (List.mem_cons_self _ _)
    · intro a ha b hb
      exact h4 a ha b (List.mem_cons_of_mem _ hb)
  · rintro ⟨h1, h2, h3, h4, h5⟩
    refine ⟨h1, ⟨h4, h2⟩, ?_⟩
    intro a ha b hb
    rcases List.mem_cons.mp hb with hb1 | hb1
    · exact hb1 ▸ h3 a ha
    · exact h5 a ha b hb1

theorem ordered_insert {t : Tree} {v : Nat} (h : ordered t) :
    ordered (insertValue t v) := by
  induction t with
  | nil =>
    rw [insertValue, ordered, inorder, inorder]
    simp
  | node l x r hh ihl ihr =>
    rw [insertValue]
    obtain ⟨hl, hr, hlx, hxr, hlr⟩ := ordered_node.mp h
    split
    · exact h
    · rename_i hne
      have hvx : ¬ v = x := fun hvx => hne (nodeEq_iff.mpr (hvx ▸ rfl))
      split
      · rename_i hlt
        rw [ordered, inorder_balanceNode, inorder_updateHeight]
        rw [show inorder (node (insertValue l v) x r hh) =
          inorder (insertValue l v) ++ x :: inorder r from rfl]
        rw [List.pairwise_append, List.pairwise_cons]
        refine ⟨ihl hl, ⟨hxr, (ordered_node.mp h).2.1⟩, ?_⟩
        intro a ha b hb
        rcases insertValue_mem ha with ha1 | ha1
        · rcases List.mem_cons.mp hb with hb1 | hb1
          · exact hb1 ▸ hlx a ha1
          · exact hlr a ha1 b hb1
        · subst ha1
          rcases List.mem_cons.mp hb with hb1 | hb1
          · exact hb1 ▸ hlt
          · exact lt_trans hlt (hxr b hb1)
      · rename_i hge
        have hxv : x < v := by omega
        rw [ordered, inorder_balanceNode, inorder_updateHeight]
        rw [show inorder (node l x (insertValue r v) hh) =
          inorder l ++ x :: inorder (insertValue r v) from rfl]
        rw [List.pairwise_append, List.pairwise_cons]
        refine ⟨hl, ⟨?_, ihr hr⟩, ?_⟩
        · intro b hb
          rcases insertValue_mem hb with hb1 | hb1
          · exact hxr b hb1
          · exact hb1 ▸ hxv
        · intro a ha b hb
          rcases List.mem_cons.mp hb with hb1 | hb1
          · exact hb1 ▸ hlx a ha
          · rcases insertValue_mem hb1 with hb2 | hb2
            · exact hlr a ha b hb2
            · exact hb2 ▸ lt_trans (hlx a ha) hxv

end Avl

namespace Avl

open Tree

theorem tsize_setMin : ∀ (u : Tree) (w : Nat), tsize (setMin u w) = tsize u := by
  intro u w
  induction u with
  | nil => rfl
  | node ul ux ur uh ihl ihr =>
    cases ul with
    | nil => rfl
    | node a b c d => simp only [setMin, tsize, ihl]

theorem tsize_setMax : ∀ (u : Tree) (w : Nat), tsize (setMax u w) = tsize u := by
  intro u w
  induction u with
  | nil => rfl
  | node ul ux ur uh ihl ihr =>
    cases ur with
    | nil => rfl
    | node a b c d => simp only [setMax, tsize, ihr]

theorem setMin_spec :
    ∀ (t : Tree), t ≠ nil → ∀ (w : Nat),
      inorder t = minVal t :: (inorder t).tail ∧
      inorder (setMin t w) = w :: (inorder t).tail := by
  intro t
  induction t with
  | nil => intro h; exact absurd rfl h
  | node l x r hh ihl ihr =>
    intro h w
    cases l with
    | nil => exact ⟨rfl, rfl⟩
    | node a b c d =>
      obtain ⟨hrep, hset⟩ := ihl (by simp) w
      have hin : inorder (node (node a b c d) x r hh) =
          minVal (node a b c d) :: ((inorder (node a b c d)).tail ++ x :: inorder r) := by
        show inorder (node a b c d) ++ x :: inorder r = _
        conv_lhs => rw [hrep]
        rfl
      have hset2 : inorder (setMin (node (node a b c d) x r hh) w) =
          w :: ((inorder (node a b c d)).tail ++ x :: inorder r) := by
        show inorder (setMin (node a b c d) w) ++ x :: inorder r = _
        rw [hset]
        rfl
      constructor
      · rw [hin]
        rfl
      · rw [hset2, hin]
        rfl

theorem setMax_spec :
    ∀ (t : Tree), t ≠ nil → ∀ (w : Nat),
      inorder t = (inorder t).dropLast ++ [maxVal t] ∧
      inorder (setMax t w) = (inorder t).dropLast ++ [w] := by
  intro t
  induction t with
  | nil => intro h; exact absurd rfl h
  | node l x r hh ihl ihr =>
    intro h w
    cases r with
    | nil =>
      have hin : inorder (node l x nil hh) = inorder l ++ [x] := rfl
      have hdrop : (inorder (node l x nil hh)).dropLast = inorder l := by
        rw [hin, List.dropLast_concat]
      refine ⟨?_, ?_⟩
      · rw [hdrop, hin]
        rfl
      · rw [hdrop]
        rfl
    | node a b c d =>
      obtain ⟨hrep, hset⟩ := ihr (by simp) w
      have hrep2 : inorder (node l x (node a b c d) hh) =
          (inorder l ++ x :: (inorder (node a b c d)).dropLast) ++ [maxVal (node a b c d)] := by
        show inorder l ++ x :: inorder (node a b c d) = _
        conv_lhs => rw [hrep]
        simp [List.append_assoc]
      have hdrop : (inorder (node l x (node a b c d) hh)).dropLast =
          inorder l ++ x :: (inorder (node a b c d)).dropLast := by
        rw [hrep2, List.dropLast_concat]
      refine ⟨?_, ?_⟩
      · rw [hdrop, hrep2]
        simp only [List.append_assoc, List.cons_append, List.append_cancel_left_eq]
        rfl
      · rw [hdrop]
        show inorder l ++ x :: inorder (setMax (node a b c d) w) = _
        rw [hset]
        simp [List.append_assoc]

end Avl

namespace Avl

open Tree

/-- `erase_value` on a BST-ordered tree removes exactly (the first and
only occurrence of) `v` from the in-order listing. -/
theorem erase_inorder :
    ∀ (n : Nat) (t : Tree), tsize t ≤ n → ∀ (v : Nat), ordered t →
      inorder (eraseValue t v) = (inorder t).erase v := by
  intro n
  induction n with
  | zero =>
    intro t hsz v ho
    cases t with
    | nil => rw [eraseValue]; rfl
    | node l x r hh => simp [tsize] at hsz
  | succ n ih =>
    intro t hsz v ho
    cases t with
    | nil => rw [eraseValue]; rfl
    | node l x r hh =>
      rw [eraseValue]
      obtain ⟨hl, hr, hlx, hxr, hlr⟩ := ordered_node.mp ho
      have hxnl : x ∉ inorder l := fun hm => absurd (hlx x hm) (lt_irrefl x)
      by_cases heq : nodeEq x v
      · have hxv : x = v := nodeEq_iff.mp heq
        subst hxv
        rw [if_pos heq]
        by_cases hboth : l = nil ∧ r = nil
        · rw [if_pos hboth]
          obtain ⟨hl0, hr0⟩ := hboth
          subst hl0
          subst hr0
          show ([] : List Nat) = (inorder (node nil x nil hh)).erase x
          rw [show inorder (node nil x nil hh) = [x] from rfl, List.erase_cons_head]
        · rw [if_neg hboth]
          by_cases hgo : l = nil ∨ (r ≠ nil ∧ cachedH r > cachedH l)
          · rw [if_pos hgo]
            have hrne : r ≠ nil := by
              rcases hgo with h0 | h0
              · intro h1
                exact hboth ⟨h0, h1⟩
              · exact h0.1
            obtain ⟨hrep, hset⟩ := setMin_spec r hrne x
            have hordset : ordered (setMin r x) := by
              rw [ordered, hset, List.pairwise_cons]
              constructor
              · intro b hb
                exact hxr b (by rw [hrep]; exact List.mem_cons_of_mem _ hb)
              · have h2 : (minVal r :: (inorder r).tail).Pairwise (· < ·) := hrep ▸ hr
                exact (List.pairwise_cons.mp h2).2
            have hsz2 : tsize (setMin r x) ≤ n := by
              rw [tsize_setMin]
              simp only [tsize] at hsz
              omega
            have hih := ih (setMin r x) hsz2 x hordset
            rw [hset, List.erase_cons_head] at hih
            rw [inorder_balanceNode, inorder_updateHeight]
            show inorder l ++ minVal r :: inorder (eraseValue (setMin r x) x) =
              (inorder l ++ x :: inorder r).erase x
            rw [hih, List.erase_append_right _ hxnl, List.erase_cons_head]
            conv_rhs => rw [hrep]
          · rw [if_neg hgo]
            have hlne : l ≠ nil := fun h0 => hgo (Or.inl h0)
            obtain ⟨hrep, hset⟩ := setMax_spec l hlne x
            have hDL : ∀ a ∈ (inorder l).dropLast, a ∈ inorder l := by
              intro a ha
              rw [hrep]
              exact List.mem_append_left _ ha
            have hordset : ordered (setMax l x) := by
              rw [ordered, hset, List.pairwise_append]
              refine ⟨?_, List.pairwise_singleton _ _, ?_⟩
              · have h2 : ((inorder l).dropLast ++ [maxVal l]).Pairwise (· < ·) := hrep ▸ hl
                exact (List.pairwise_append.mp h2).1
              · intro a ha b hb
                rw [List.mem_singleton] at hb
                subst hb
                exact hlx a (hDL a ha)
            have hsz2 : tsize (setMax l x) ≤ n := by
              rw [tsize_setMax]
              simp only [tsize] at hsz
              omega
            have hih := ih (setMax l x) hsz2 x hordset
            have hxDL : x ∉ (inorder l).dropLast := fun hm => hxnl (hDL x hm)
            rw [hset, List.erase_append_right _ hxDL, List.erase_cons_head,
              List.append_nil] at hih
            rw [inorder_balanceNode, inorder_updateHeight]
            show inorder (eraseValue (setMax l x) x) ++ maxVal l :: inorder r =
              (inorder l ++ x :: inorder r).erase x
            rw [hih, List.erase_append_right _ hxnl, List.erase_cons_head]
            conv_rhs => rw [hrep]
            rw [List.append_assoc]
            rfl
      · rw [if_neg heq]
        have hvx : v ≠ x := fun h0 => heq (nodeEq_iff.mpr h0.symm)
        by_cases hlt : v < x
        · rw [if_pos hlt]
          rw [inorder_balanceNode, inorder_updateHeight]
          show inorder (eraseValue l v) ++ x :: inorder r =
            (inorder l ++ x :: inorder r).erase v
          have hszl : tsize l ≤ n := by
            simp only [tsize] at hsz
            omega
          rw [ih l hszl v hl]
          by_cases hmem : v ∈ inorder l
          · rw [List.erase_append_left _ hmem]
          · rw [List.erase_of_not_mem hmem, List.erase_append_right _ hmem,
              List.erase_cons_tail, List.erase_of_not_mem
                (fun hm => absurd (lt_trans hlt (hxr v hm)) (lt_irrefl v))]
            simp [Ne.symm hvx]
        · rw [if_neg hlt]
          have hxv : x < v := by omega
          rw [inorder_balanceNode, inorder_updateHeight]
          show inorder l ++ x :: inorder (eraseValue r v) =
            (inorder l ++ x :: inorder r).erase v
          have hszr : tsize r ≤ n := by
            simp only [tsize] at hsz
            omega
          rw [ih r hszr v hr]
          have hvnl : v ∉ inorder l := fun hm => absurd (lt_trans (hlx v hm) hxv) (lt_irrefl v)
          rw [List.erase_append_right _ hvnl, List.erase_cons_tail]
          simp [Ne.symm hvx]

end Avl

namespace Avl

open Tree

theorem ordered_erase {t : Tree} {v : Nat} (h : ordered t) :
    ordered (eraseValue t v) := by
  rw [ordered, erase_inorder (tsize t) t (Nat.le_refl _) v h]
  exact List.Pairwise.sublist (List.erase_sublist v (inorder t)) h

/-- Every tree reachable by the public insert/erase calls is BST-ordered. -/
theorem treach_ordered {t : Tree} (h : TReach t) : ordered t := by
  induction h with
  | empty => exact List.Pairwise.nil
  | ins v hr ih => exact ordered_insert ih
  | ers v hr ih => exact ordered_erase ih

/-- C1: for every tree reachable from the empty tree by inserts and
erases, iterating from `begin()` with `operator++` visits exactly the
stored values (the in-order listing), each exactly once, in strictly
ascending order. -/
theorem avlset_iteration_ascending (t : Tree) (h : TReach t) :
    iterAll t = inorder t ∧ (iterAll t).Pairwise (· < ·) :=
  ⟨iterAll_eq_inorder t, (iterAll_eq_inorder t).symm ▸ treach_ordered h⟩

/-- C1 witness: the tree built by inserting 2, 1, 3. -/
theorem avlset_iteration_ascending_applied :
    iterAll (setInsert (setInsert (setInsert nil 2) 1) 3) =
      inorder (setInsert (setInsert (setInsert nil 2) 1) 3) ∧
    (iterAll (setInsert (setInsert (setInsert nil 2) 1) 3)).Pairwise (· < ·) :=
  avlset_iteration_ascending _
    (TReach.ins 3 (TReach.ins 1 (TReach.ins 2 TReach.empty)))

end Avl



namespace Avl

open Tree

theorem cachedH_eq {t : Tree} (h : hOK t) : cachedH t = realH t := by
  cases t with
  | nil => rfl
  | node l v r hh => exact h.2.2

/-- `balance_node` on a height-updated node with balanced subtrees and a
root imbalance of at most 2 restores the AVL shape; the height is kept or
drops by one, and is kept exactly when the root was already in balance. -/
theorem balance_restore (l : Tree) (x : Nat) (r : Tree)
    (hlk : hOK l) (hla : avl l) (hrk : hOK r) (hra : avl r)
    (hb1 : realH l ≤ realH r + 2) (hb2 : realH r ≤ realH l + 2) :
    hOK (balanceNode (node l x r (1 + max (realH l) (realH r)))) ∧
    avl (balanceNode (node l x r (1 + max (realH l) (realH r)))) ∧
    (realH (balanceNode (node l x r (1 + max (realH l) (realH r)))) =
        1 + max (realH l) (realH r) ∨
      realH (balanceNode (node l x r (1 + max (realH l) (realH r)))) + 1 =
        1 + max (realH l) (realH r)) ∧
    (realH l ≤ realH r + 1 → realH r ≤ realH l + 1 →
      realH (balanceNode (node l x r (1 + max (realH l) (realH r)))) =
        1 + max (realH l) (realH r)) := by
  have hel : cachedH l = realH l := cachedH_eq hlk
  have her : cachedH r = realH r := cachedH_eq hrk
  rw [balanceNode]
  by_cases hneg : getBalance (node l x r (1 + max (realH l) (realH r))) = -2
  · rw [if_pos hneg]
    rw [getBalance, hel, her] at hneg
    have hba : realH r = realH l + 2 := by omega
    rcases r with _ | ⟨m, w, n, hc⟩
    · exfalso
      rw [show realH nil = 0 from rfl] at hba
      omega
    · obtain ⟨hmk, hnk, hceq⟩ := hrk
      obtain ⟨hma, hna, hmn1, hmn2⟩ := hra
      have hem : cachedH m = realH m := cachedH_eq hmk
      have hen : cachedH n = realH n := cachedH_eq hnk
      rw [show realH (node m w n hc) = 1 + max (realH m) (realH n) from rfl] at hba hb1 hb2
      by_cases hinner : getBalance (node m w n hc) = 1
      · rw [if_pos hinner]
        rw [getBalance, hem, hen] at hinner
        have hmn : realH m = realH n + 1 := by omega
        rcases m with _ | ⟨p, a2, s, hmc⟩
        · exfalso
          rw [show realH nil = 0 from rfl] at hmn
          omega
        · obtain ⟨hpk, hsk, hpeq⟩ := hmk
          obtain ⟨hpa, hsa, hps1, hps2⟩ := hma
          have hep : cachedH p = realH p := cachedH_eq hpk
          have hes : cachedH s = realH s := cachedH_eq hsk
          rw [show realH (node p a2 s hmc) = 1 + max (realH p) (realH s) from rfl]
            at hmn hmn1 hmn2 hba hb1 hb2
          rw [show bigRotateLeft
              (node l x (node (node p a2 s hmc) w n hc) (1 + max (realH l) (realH (node (node p a2 s hmc) w n hc)))) =
            node (node l x p (1 + max (cachedH l) (cachedH p))) a2
              (node s w n (1 + max (cachedH s) (cachedH n)))
              (1 + max (1 + max (cachedH l) (cachedH p)) (1 + max (cachedH s) (cachedH n)))
            from rfl]
          rw [hel, hep, hes, hen]
          refine ⟨⟨⟨hlk, hpk, rfl⟩, ⟨hsk, hnk, rfl⟩, rfl⟩,
            ⟨⟨hla, hpa, by omega, by omega⟩, ⟨hsa, hna, by omega, by omega⟩, ?_, ?_⟩,
            ?_, ?_⟩
          · show 1 + max (realH l) (realH p) ≤ 1 + max (realH s) (realH n) + 1
            omega
          · show 1 + max (realH s) (realH n) ≤ 1 + max (realH l) (realH p) + 1
            omega
          · show 1 + max (1 + max (realH l) (realH p)) (1 + max (realH s) (realH n)) =
              1 + max (realH l) (1 + max (1 + max (realH p) (realH s)) (realH n)) ∨
            1 + max (1 + max (realH l) (realH p)) (1 + max (realH s) (realH n)) + 1 =
              1 + max (realH l) (1 + max (1 + max (realH p) (realH s)) (realH n))
            omega
          · intro h1 h2
            omega
      · rw [if_neg hinner]
        rw [getBalance, hem, hen] at hinner
        rw [show rotateLeft
            (node l x (node m w n hc) (1 + max (realH l) (realH (node m w n hc)))) =
          node (node l x m (1 + max (cachedH l) (cachedH m))) w n
            (1 + max (1 + max (cachedH l) (cachedH m)) (cachedH n))
          from rfl]
        rw [hel, hem, hen]
        refine ⟨⟨⟨hlk, hmk, rfl⟩, hnk, rfl⟩,
          ⟨⟨hla, hma, by omega, by omega⟩, hna, ?_, ?_⟩, ?_, ?_⟩
        · show 1 + max (realH l) (realH m) ≤ realH n + 1
          omega
        · show realH n ≤ 1 + max (realH l) (realH m) + 1
          omega
        · show 1 + max (1 + max (realH l) (realH m)) (realH n) =
            1 + max (realH l) (1 + max (realH m) (realH n)) ∨
          1 + max (1 + max (realH l) (realH m)) (realH n) + 1 =
            1 + max (realH l) (1 + max (realH m) (realH n))
          omega
        · intro h1 h2
          omega
  · rw [if_neg hneg]
    rw [getBalance, hel, her] at hneg
    by_cases hpos : getBalance (node l x r (1 + max (realH l) (realH r))) = 2
    · rw [if_pos hpos]
      rw [getBalance, hel, her] at hpos
      have hba : realH l = realH r + 2 := by omega
      rcases l with _ | ⟨m, w, n, hc⟩
      · exfalso
        rw [show realH nil = 0 from rfl] at hba
        omega
      · obtain ⟨hmk, hnk, hceq⟩ := hlk
        obtain ⟨hma, hna, hmn1, hmn2⟩ := hla
        have hem : cachedH m = realH m := cachedH_eq hmk
        have hen : cachedH n = realH n := cachedH_eq hnk
        rw [show realH (node m w n hc) = 1 + max (realH m) (realH n) from rfl] at hba hb1 hb2
        by_cases hinner : getBalance (node m w n hc) = -1
        · rw [if_pos hinner]
          rw [getBalance, hem, hen] at hinner
          have hmn : realH n = realH m + 1 := by omega
          rcases n with _ | ⟨p, a2, s, hnc⟩
          · exfalso
            rw [show realH nil = 0 from rfl] at hmn
            omega
          · obtain ⟨hpk, hsk, hpeq⟩ := hnk
            obtain ⟨hpa, hsa, hps1, hps2⟩ := hna
            have hep : cachedH p = realH p := cachedH_eq hpk
            have hes : cachedH s = realH s := cachedH_eq hsk
            rw [show realH (node p a2 s hnc) = 1 + max (realH p) (realH s) from rfl]
              at hmn hmn1 hmn2 hba hb1 hb2
            rw [show bigRotateRight
                (node (node m w (node p a2 s hnc) hc) x r
                  (1 + max (realH (node m w (node p a2 s hnc) hc)) (realH r))) =
              node (node m w p (1 + max (cachedH m) (cachedH p))) a2
                (node s x r (1 + max (cachedH s) (cachedH r)))
                (1 + max (1 + max (cachedH m) (cachedH p)) (1 + max (cachedH s) (cachedH r)))
              from rfl]
            rw [hem, hep, hes, her]
            refine ⟨⟨⟨hmk, hpk, rfl⟩, ⟨hsk, hrk, rfl⟩, rfl⟩,
              ⟨⟨hma, hpa, by omega, by omega⟩, ⟨hsa, hra, by omega, by omega⟩, ?_, ?_⟩,
              ?_, ?_⟩
            · show 1 + max (realH m) (realH p) ≤ 1 + max (realH s) (realH r) + 1
              omega
            · show 1 + max (realH s) (realH r) ≤ 1 + max (realH m) (realH p) + 1
              omega
            · show 1 + max (1 + max (realH m) (realH p)) (1 + max (realH s) (realH r)) =
                1 + max (1 + max (realH m) (1 + max (realH p) (realH s)))
                  (realH r) ∨
              1 + max (1 + max (realH m) (realH p)) (1 + max (realH s) (realH r)) + 1 =
                1 + max (1 + max (realH m) (1 + max (realH p) (realH s)))
                  (realH r)
              omega
            · intro h1 h2
              omega
        · rw [if_neg hinner]
          rw [getBalance, hem, hen] at hinner
          rw [show rotateRight
              (node (node m w n hc) x r (1 + max (realH (node m w n hc)) (realH r))) =
            node m w (node n x r (1 + max (cachedH n) (cachedH r)))
              (1 + max (cachedH m) (1 + max (cachedH n) (cachedH r)))
            from rfl]
          rw [hem, hen, her]
          refine ⟨⟨hmk, ⟨hnk, hrk, rfl⟩, rfl⟩,
            ⟨hma, ⟨hna, hra, by omega, by omega⟩, ?_, ?_⟩, ?_, ?_⟩
          · show realH m ≤ 1 + max (realH n) (realH r) + 1
            omega
          · show 1 + max (realH n) (realH r) ≤ realH m + 1
            omega
          · show 1 + max (realH m) (1 + max (realH n) (realH r)) =
              1 + max (1 + max (realH m) (realH n)) (realH r) ∨
            1 + max (realH m) (1 + max (realH n) (realH r)) + 1 =
              1 + max (1 + max (realH m) (realH n)) (realH r)
            omega
          · intro h1 h2
            omega
    · rw [if_neg hpos]
      rw [getBalance, hel, her] at hpos
      refine ⟨⟨hlk, hrk, rfl⟩, ⟨hla, hra, by omega, by omega⟩, Or.inl rfl, fun h1 h2 => rfl⟩

end Avl

namespace Avl

open Tree

/-- Insertion keeps the height caches correct and the tree AVL-balanced;
the height stays or grows by one. -/
theorem insert_avl :
    ∀ (t : Tree) (v : Nat), hOK t → avl t →
      hOK (insertValue t v) ∧ avl (insertValue t v) ∧
      (realH (insertValue t v) = realH t ∨ realH (insertValue t v) = realH t + 1) := by
  intro t
  induction t with
  | nil =>
    intro v hk ha
    rw [insertValue]
    refine ⟨⟨trivial, trivial, rfl⟩, ⟨trivial, trivial, by omega, by omega⟩, ?_⟩
    right
    rfl
  | node l x r hh ihl ihr =>
    intro v hk ha
    obtain ⟨hlk, hrk, hceq⟩ := hk
    obtain ⟨hla, hra, h1, h2⟩ := ha
    rw [insertValue]
    split
    · exact ⟨⟨hlk, hrk, hceq⟩, ⟨hla, hra, h1, h2⟩, Or.inl rfl⟩
    · split
      · obtain ⟨hik, hia, hih⟩ := ihl v hlk hla
        have hupd : updateHeight (node (insertValue l v) x r hh) =
            node (insertValue l v) x r (1 + max (realH (insertValue l v)) (realH r)) := by
          show node (insertValue l v) x r (1 + max (cachedH (insertValue l v)) (cachedH r)) = _
          rw [cachedH_eq hik, cachedH_eq hrk]
        rw [hupd]
        obtain ⟨hbk, hba, hbh, hbe⟩ := balance_restore (insertValue l v) x r hik hia hrk hra
          (by omega) (by omega)
        refine ⟨hbk, hba, ?_⟩
        rw [show realH (node l x r hh) = 1 + max (realH l) (realH r) from rfl]
        rcases hih with h3 | h3
        · rw [hbe (by omega) (by omega)]
          omega
        · rcases hbh with h4 | h4
          · omega
          · by_cases hx : realH (insertValue l v) ≤ realH r + 1
            · rw [hbe (by omega) (by omega)] at h4 ⊢
              omega
            · omega
      · obtain ⟨hik, hia, hih⟩ := ihr v hrk hra
        have hupd : updateHeight (node l x (insertValue r v) hh) =
            node l x (insertValue r v) (1 + max (realH l) (realH (insertValue r v))) := by
          show node l x (insertValue r v) (1 + max (cachedH l) (cachedH (insertValue r v))) = _
          rw [cachedH_eq hlk, cachedH_eq hik]
        rw [hupd]
        obtain ⟨hbk, hba, hbh, hbe⟩ := balance_restore l x (insertValue r v) hlk hla hik hia
          (by omega) (by omega)
        refine ⟨hbk, hba, ?_⟩
        rw [show realH (node l x r hh) = 1 + max (realH l) (realH r) from rfl]
        rcases hih with h3 | h3
        · rw [hbe (by omega) (by omega)]
          omega
        · rcases hbh with h4 | h4
          · omega
          · by_cases hx : realH (insertValue r v) ≤ realH l + 1
            · rw [hbe (by omega) (by omega)] at h4 ⊢
              omega
            · omega

end Avl

namespace Avl

open Tree

theorem realH_setMin : ∀ (u : Tree) (w : Nat), realH (setMin u w) = realH u := by
  intro u w
  induction u with
  | nil => rfl
  | node ul ux ur uh ihl ihr =>
    cases ul with
    | nil => rfl
    | node a b c d => simp only [setMin, realH, ihl]

theorem realH_setMax : ∀ (u : Tree) (w : Nat), realH (setMax u w) = realH u := by
  intro u w
  induction u with
  | nil => rfl
  | node ul ux ur uh ihl ihr =>
    cases ur with
    | nil => rfl
    | node a b c d => simp only [setMax, realH, ihr]

theorem hOK_setMin : ∀ (u : Tree) (w : Nat), hOK u → hOK (setMin u w) := by
  intro u w
  induction u with
  | nil => exact fun h => h
  | node ul ux ur uh ihl ihr =>
    intro h
    cases ul with
    | nil => exact h
    | node a b c d =>
      obtain ⟨h1, h2, h3⟩ := h
      exact ⟨ihl h1, h2, by rw [realH_setMin]; exact h3⟩

theorem hOK_setMax : ∀ (u : Tree) (w : Nat), hOK u → hOK (setMax u w) := by
  intro u w
  induction u with
  | nil => exact fun h => h
  | node ul ux ur uh ihl ihr =>
    intro h
    cases ur with
    | nil => exact h
    | node a b c d =>
      obtain ⟨h1, h2, h3⟩ := h
      exact ⟨h1, ihr h2, by rw [realH_setMax]; exact h3⟩

theorem avl_setMin : ∀ (u : Tree) (w : Nat), avl u → avl (setMin u w) := by
  intro u w
  induction u with
  | nil => exact fun h => h
  | node ul ux ur uh ihl ihr =>
    intro h
    cases ul with
    | nil => exact h
    | node a b c d =>
      obtain ⟨h1, h2, h3, h4⟩ := h
      refine ⟨ihl h1, h2, ?_, ?_⟩ <;> rw [realH_setMin] <;> omega

theorem avl_setMax : ∀ (u : Tree) (w : Nat), avl u → avl (setMax u w) := by
  intro u w
  induction u with
  | nil => exact fun h => h
  | node ul ux ur uh ihl ihr =>
    intro h
    cases ur with
    | nil => exact h
    | node a b c d =>
      obtain ⟨h1, h2, h3, h4⟩ := h
      refine ⟨h1, ihr h2, ?_, ?_⟩ <;> rw [realH_setMax] <;> omega

/-- Erasure keeps the height caches correct and the tree AVL-balanced;
the height stays or shrinks by one. -/
theorem erase_avl :
    ∀ (n : Nat) (t : Tree), tsize t ≤ n → ∀ (v : Nat), hOK t → avl t →
      hOK (eraseValue t v) ∧ avl (eraseValue t v) ∧
      (realH (eraseValue t v) = realH t ∨ realH (eraseValue t v) + 1 = realH t) := by
  intro n
  induction n with
  | zero =>
    intro t hsz v hk ha
    cases t with
    | nil => rw [eraseValue]; exact ⟨trivial, trivial, Or.inl rfl⟩
    | node l x r hh => simp [tsize] at hsz
  | succ n ih =>
    intro t hsz v hk ha
    cases t with
    | nil => rw [eraseValue]; exact ⟨trivial, trivial, Or.inl rfl⟩
    | node l x r hh =>
      obtain ⟨hlk, hrk, hceq⟩ := hk
      obtain ⟨hla, hra, h1, h2⟩ := ha
      rw [eraseValue]
      by_cases heq : nodeEq x v
      · rw [if_pos heq]
        by_cases hboth : l = nil ∧ r = nil
        · rw [if_pos hboth]
          obtain ⟨hl0, hr0⟩ := hboth
          subst hl0
          subst hr0
          refine ⟨trivial, trivial, Or.inr rfl⟩
        · rw [if_neg hboth]
          by_cases hgo : l = nil ∨ (r ≠ nil ∧ cachedH r > cachedH l)
          · rw [if_pos hgo]
            have hsz2 : tsize (setMin r v) ≤ n := by
              rw [tsize_setMin]
              simp only [tsize] at hsz
              omega
            obtain ⟨hek, hea, heh⟩ :=
              ih (setMin r v) hsz2 v (hOK_setMin r v hrk) (avl_setMin r v hra)
            rw [realH_setMin] at heh
            have hupd : updateHeight (node l (minVal r) (eraseValue (setMin r v) v) hh) =
                node l (minVal r) (eraseValue (setMin r v) v)
                  (1 + max (realH l) (realH (eraseValue (setMin r v) v))) := by
              show node l (minVal r) (eraseValue (setMin r v) v)
                (1 + max (cachedH l) (cachedH (eraseValue (setMin r v) v))) = _
              rw [cachedH_eq hlk, cachedH_eq hek]
            rw [hupd]
            obtain ⟨hbk, hba, hbh, hbe⟩ :=
              balance_restore l (minVal r) (eraseValue (setMin r v) v) hlk hla hek hea
                (by omega) (by omega)
            refine ⟨hbk, hba, ?_⟩
            rw [show realH (node l x r hh) = 1 + max (realH l) (realH r) from rfl]
            by_cases hx1 : realH l ≤ realH (eraseValue (setMin r v) v) + 1
            · by_cases hx2 : realH (eraseValue (setMin r v) v) ≤ realH l + 1
              · have heq2 := hbe hx1 hx2
                omega
              · omega
            · omega
          · rw [if_neg hgo]
            have hsz2 : tsize (setMax l v) ≤ n := by
              rw [tsize_setMax]
              simp only [tsize] at hsz
              omega
            obtain ⟨hek, hea, heh⟩ :=
              ih (setMax l v) hsz2 v (hOK_setMax l v hlk) (avl_setMax l v hla)
            rw [realH_setMax] at heh
            have hupd : updateHeight (node (eraseValue (setMax l v) v) (maxVal l) r hh) =
                node (eraseValue (setMax l v) v) (maxVal l) r
                  (1 + max (realH (eraseValue (setMax l v) v)) (realH r)) := by
              show node (eraseValue (setMax l v) v) (maxVal l) r
                (1 + max (cachedH (eraseValue (setMax l v) v)) (cachedH r)) = _
              rw [cachedH_eq hek, cachedH_eq hrk]
            rw [hupd]
            obtain ⟨hbk, hba, hbh, hbe⟩ :=
              balance_restore (eraseValue (setMax l v) v) (maxVal l) r hek hea hrk hra
                (by omega) (by omega)
            refine ⟨hbk, hba, ?_⟩
            rw [show realH (node l x r hh) = 1 + max (realH l) (realH r) from rfl]
            by_cases hx1 : realH (eraseValue (setMax l v) v) ≤ realH r + 1
            · by_cases hx2 : realH r ≤ realH (eraseValue (setMax l v) v) + 1
              · have heq2 := hbe hx1 hx2
                omega
              · omega
            · omega
      · rw [if_neg heq]
        by_cases hlt : v < x
        · rw [if_pos hlt]
          have hszl : tsize l ≤ n := by
            simp only [tsize] at hsz
            omega
          obtain ⟨hek, hea, heh⟩ := ih l hszl v hlk hla
          have hupd : updateHeight (node (eraseValue l v) x r hh) =
              node (eraseValue l v) x r (1 + max (realH (eraseValue l v)) (realH r)) := by
            show node (eraseValue l v) x r
              (1 + max (cachedH (eraseValue l v)) (cachedH r)) = _
            rw [cachedH_eq hek, cachedH_eq hrk]
          rw [hupd]
          obtain ⟨hbk, hba, hbh, hbe⟩ :=
            balance_restore (eraseValue l v) x r hek hea hrk hra (by omega) (by omega)
          refine ⟨hbk, hba, ?_⟩
          rw [show realH (node l x r hh) = 1 + max (realH l) (realH r) from rfl]
          by_cases hx1 : realH (eraseValue l v) ≤ realH r + 1
          · by_cases hx2 : realH r ≤ realH (eraseValue l v) + 1
            · have heq2 := hbe hx1 hx2
              omega
            · omega
          · omega
        · rw [if_neg hlt]
          have hszr : tsize r ≤ n := by
            simp only [tsize] at hsz
            omega
          obtain ⟨hek, hea, heh⟩ := ih r hszr v hrk hra
          have hupd : updateHeight (node l x (eraseValue r v) hh) =
              node l x (eraseValue r v) (1 + max (realH l) (realH (eraseValue r v))) := by
            show node l x (eraseValue r v)
              (1 + max (cachedH l) (cachedH (eraseValue r v))) = _
            rw [cachedH_eq hlk, cachedH_eq hek]
          rw [hupd]
          obtain ⟨hbk, hba, hbh, hbe⟩ :=
            balance_restore l x (eraseValue r v) hlk hla hek hea (by omega) (by omega)
          refine ⟨hbk, hba, ?_⟩
          rw [show realH (node l x r hh) = 1 + max (realH l) (realH r) from rfl]
          by_cases hx1 : realH l ≤ realH (eraseValue r v) + 1
          · by_cases hx2 : realH (eraseValue r v) ≤ realH l + 1
            · have heq2 := hbe hx1 hx2
              omega
            · omega
          · omega

end Avl

namespace Avl

open Tree

/-- Every reachable tree has correct height caches and is AVL-balanced. -/
theorem treach_avl {t : Tree} (h : TReach t) : hOK t ∧ avl t := by
  induction h with
  | empty => exact ⟨trivial, trivial⟩
  | ins v hr ih => exact ⟨(insert_avl _ v ih.1 ih.2).1, (insert_avl _ v ih.1 ih.2).2.1⟩
  | ers v hr ih =>
    exact ⟨(erase_avl (tsize _) _ (Nat.le_refl _) v ih.1 ih.2).1,
      (erase_avl (tsize _) _ (Nat.le_refl _) v ih.1 ih.2).2.1⟩

/-- C2: after every public insert/erase sequence, every node's cached
height equals `1 + max` of its children's heights (`hOK`), and every
node's subtree heights differ by at most one (`avl`, a missing child
counting height 0). -/
theorem avlset_balanced (t : Tree) (h : TReach t) : hOK t ∧ avl t := treach_avl h

/-- C2 witness: the tree built by inserting 1, 2, 3, 4 (forcing a
rotation) and erasing 2. -/
theorem avlset_balanced_applied :
    hOK (setErase (setInsert (setInsert (setInsert (setInsert nil 1) 2) 3) 4) 2) ∧
    avl (setErase (setInsert (setInsert (setInsert (setInsert nil 1) 2) 3) 4) 2) :=
  avlset_balanced _
    (TReach.ers 2 (TReach.ins 4 (TReach.ins 3 (TReach.ins 2 (TReach.ins 1 TReach.empty)))))

end Avl
